import Mathlib

/-!
Verification of the my-redis repository (a mini-redis style key-value server).

Shallow embedding conventions:
- Bytes are `Nat` values (the source works with `u8`); byte sequences are `List Nat`.
- Rust `String` values are represented by their UTF-8 byte sequences (`List Nat`),
  so `String::from_utf8` on bytes that came from a `String` is the identity and its
  failure branch (never taken on such bytes) is dropped.
- `Instant` and `Duration` are `Nat` (milliseconds); `Instant + Duration` is `+`.
- The codec cursor (`std::io::Cursor`) is modelled by passing the remaining suffix
  of the buffer; "the cursor position" is original length minus suffix length.
- Recursive frame checking/parsing carries an explicit fuel argument (first
  argument, structurally decreasing) plus a count of frames still to read; fuel
  `length + 1` is proved sufficient, and the public `Frame.check` / `Frame.parse`
  wrappers fix that fuel.
-/

namespace MyRedis

/-- Byte strings: a Rust `String` or `Bytes` value, as its byte sequence. -/
abbrev Str := List Nat

/-- ASCII byte of the carriage return. -/
def CR : Nat := 13

/-- ASCII byte of the line feed. -/
def LF : Nat := 10

/-- Does this byte denote an ASCII decimal digit? -/
def isDigitByte (b : Nat) : Bool := 48 ≤ b && b ≤ 57

/-- Decimal digit bytes of a natural number, most significant first.
Models the output of `write!(buf, "{}", val)` in `Connection::write_decimal`. -/
def decDigits (n : Nat) : List Nat :=
  if h : n < 10 then [48 + n]
  else decDigits (n / 10) ++ [48 + n % 10]
decreasing_by exact Nat.div_lt_self (Nat.lt_of_lt_of_le (by omega) (Nat.le_of_not_lt h)) (by omega)

/-- Accumulating loop of the `atoi` crate: consume leading ASCII digits. -/
def atoiAux : List Nat → Nat → Nat
  | [], acc => acc
  | b :: bs, acc => if isDigitByte b then atoiAux bs (acc * 10 + (b - 48)) else acc

/-- Model of `atoi::atoi::<u64>`: `none` when the slice does not start with a
digit, otherwise the value of the maximal leading run of digits. (The u64
overflow check is dropped: every claim exercises it only on the at most twelve
digit numbers produced by `write_decimal`, where it cannot fire.) -/
def atoi (l : List Nat) : Option Nat :=
  match l with
  | [] => none
  | b :: bs => if isDigitByte b then some (atoiAux bs (b - 48)) else none

/-- Split a buffer at the first CRLF pair: `get_line` in frame.rs returns the
bytes before the first `\r\n` and leaves the cursor after it; here the second
component is the suffix after the terminator. `none` models `Error::Incomplete`. -/
def splitLine : List Nat → Option (List Nat × List Nat)
  | [] => none
  | [_] => none
  | b :: c :: rest =>
    if b = 13 ∧ c = 10 then some ([], rest)
    else
      match splitLine (c :: rest) with
      | some (line, r) => some (b :: line, r)
      | none => none

/-- True when the byte sequence contains no adjacent CRLF pair. Simple and
error payloads with this property encode to a single protocol line. -/
def noCRLF : List Nat → Bool
  | [] => true
  | [_] => true
  | b :: c :: rest => if b = 13 ∧ c = 10 then false else noCRLF (c :: rest)

/-- Errors of the frame codec (frame.rs `Error`): a distinct incomplete-input
signal versus a protocol error (whose message we do not track). -/
inductive FrameError where
  | incomplete
  | other
deriving DecidableEq, Repr

/-- The wire frame (frame.rs `Frame`), with text payloads as UTF-8 byte lists. -/
inductive Frame where
  | simple (s : Str)
  | error (s : Str)
  | integer (n : Nat)
  | bulk (b : Str)
  | null
  | array (xs : List Frame)
deriving Repr

/-- Read the next line and parse it as a decimal number (`get_decimal`). -/
def getDec (l : List Nat) : Except FrameError (Nat × List Nat) :=
  match splitLine l with
  | none => .error .incomplete
  | some (line, r) =>
    match atoi line with
    | none => .error .other
    | some n => .ok (n, r)

/-- Advance the cursor by `n` bytes (`skip` in frame.rs): incomplete when fewer
than `n` bytes remain. -/
def skipBytes (n : Nat) (l : List Nat) : Except FrameError (List Nat) :=
  if l.length < n then .error .incomplete else .ok (l.drop n)

/-- Look at the next byte without consuming it (`peek_u8`). -/
def peekByte : List Nat → Except FrameError Nat
  | [] => .error .incomplete
  | c :: _ => .ok c

/-- Model of `Frame::check`. `checkCnt fuel n l` verifies that `n` complete
frames are present at the beginning of `l` and returns the suffix after them.
The source's recursion into array elements is expressed by first checking the
`m` element frames and then the remaining `n` sibling frames; fuel decreases by
one on every recursive call and `Frame.check` below instantiates it with a
proved-sufficient bound. -/
def checkCnt : Nat → Nat → List Nat → Except FrameError (List Nat)
  | _, 0, l => .ok l
  | 0, _ + 1, _ => .error .incomplete
  | fuel + 1, n + 1, l =>
    match l with
    | [] => .error .incomplete
    | b :: rest =>
      if b = 43 ∨ b = 45 then
        -- '+' and '-': consume one line
        match splitLine rest with
        | some (_, r) => checkCnt fuel n r
        | none => .error .incomplete
      else if b = 58 then
        -- ':': consume a decimal line
        match getDec rest with
        | .ok (_, r) => checkCnt fuel n r
        | .error e => .error e
      else if b = 36 then
        -- '$': peek; on '-' skip 4 bytes, else skip payload length + CRLF
        match peekByte rest with
        | .error e => .error e
        | .ok c =>
          if c = 45 then
            match skipBytes 4 rest with
            | .ok r => checkCnt fuel n r
            | .error e => .error e
          else
            match getDec rest with
            | .ok (len, r) =>
              match skipBytes (len + 2) r with
              | .ok r2 => checkCnt fuel n r2
              | .error e => .error e
            | .error e => .error e
      else if b = 42 then
        -- '*': read the element count, check the elements, then the siblings
        match getDec rest with
        | .ok (m, r) =>
          match checkCnt fuel m r with
          | .ok r2 => checkCnt fuel n r2
          | .error e => .error e
        | .error e => .error e
      else .error .other

/-- Model of `Frame::parse` (same cursor discipline as `checkCnt`): parse `n`
frames from the front of `l`, returning them with the remaining suffix.
The `_ => unimplemented!()` arm of the source (unreachable after a successful
`check` of the same bytes, which `Connection::parse_frame` guarantees) is
rendered as a protocol error. -/
def parseCnt : Nat → Nat → List Nat → Except FrameError (List Frame × List Nat)
  | _, 0, l => .ok ([], l)
  | 0, _ + 1, _ => .error .incomplete
  | fuel + 1, n + 1, l =>
    match l with
    | [] => .error .incomplete
    | b :: rest =>
      if b = 43 then
        match splitLine rest with
        | some (line, r) =>
          match parseCnt fuel n r with
          | .ok (fs, r2) => .ok (.simple line :: fs, r2)
          | .error e => .error e
        | none => .error .incomplete
      else if b = 45 then
        match splitLine rest with
        | some (line, r) =>
          match parseCnt fuel n r with
          | .ok (fs, r2) => .ok (.error line :: fs, r2)
          | .error e => .error e
        | none => .error .incomplete
      else if b = 58 then
        match getDec rest with
        | .ok (v, r) =>
          match parseCnt fuel n r with
          | .ok (fs, r2) => .ok (.integer v :: fs, r2)
          | .error e => .error e
        | .error e => .error e
      else if b = 36 then
        match peekByte rest with
        | .error e => .error e
        | .ok c =>
          if c = 45 then
            -- a bulk-null marker: the line must be exactly "-1"
            match splitLine rest with
            | some (line, r) =>
              if line = [45, 49] then
                match parseCnt fuel n r with
                | .ok (fs, r2) => .ok (.null :: fs, r2)
                | .error e => .error e
              else .error .other
            | none => .error .incomplete
          else
            match getDec rest with
            | .ok (len, r) =>
              if r.length < len + 2 then .error .incomplete
              else
                match parseCnt fuel n (r.drop (len + 2)) with
                | .ok (fs, r2) => .ok (.bulk (r.take len) :: fs, r2)
                | .error e => .error e
            | .error e => .error e
      else if b = 42 then
        match getDec rest with
        | .ok (m, r) =>
          match parseCnt fuel m r with
          | .ok (elems, r2) =>
            match parseCnt fuel n r2 with
            | .ok (fs, r3) => .ok (.array elems :: fs, r3)
            | .error e => .error e
          | .error e => .error e
        | .error e => .error e
      else .error .other

/-- Check one frame at the front of the buffer (`Frame::check`), returning the
unconsumed suffix. -/
def Frame.check (l : List Nat) : Except FrameError (List Nat) :=
  checkCnt (l.length + 1) 1 l

/-- Bytes of a decimal line as written by `Connection::write_decimal`
(digits followed by CRLF). -/
def writeDecimal (n : Nat) : List Nat := decDigits n ++ [13, 10]

/-- Does the decimal representation fit `write_decimal`'s 12-byte scratch
buffer?  `write!` into the fixed `[0u8; 12]` cursor fails with an i/o error for
longer representations, making the whole `write_frame` call fail. -/
def writeDecimalOk (n : Nat) : Bool := (decDigits n).length ≤ 12

/-- Byte encoding of a frame per `Connection::write_frame` / `write_value`:
`+`/`-` line, `:` decimal, `$` length-prefixed bulk, `$-1` null, `*` count then
elements. -/
def Frame.encode : Frame → List Nat
  | .simple s => 43 :: (s ++ [13, 10])
  | .error s => 45 :: (s ++ [13, 10])
  | .integer n => 58 :: writeDecimal n
  | .bulk b => 36 :: (writeDecimal b.length ++ b ++ [13, 10])
  | .null => [36, 45, 49, 13, 10]
  | .array xs => 42 :: (writeDecimal xs.length ++ (xs.attach.map (fun x => Frame.encode x.1)).flatten)
decreasing_by
  have := List.sizeOf_lt_of_mem x.2
  simp [Frame.array.sizeOf_spec] at *
  omega

/-- Does encoding this frame succeed? It fails exactly when some decimal field
(an integer value, bulk length or array count) overflows `write_decimal`'s
12-byte buffer. -/
def Frame.encOk : Frame → Bool
  | .simple _ => true
  | .error _ => true
  | .integer n => writeDecimalOk n
  | .bulk b => writeDecimalOk b.length
  | .null => true
  | .array xs => writeDecimalOk xs.length && (xs.attach.map (fun x => Frame.encOk x.1)).all id
decreasing_by
  have := List.sizeOf_lt_of_mem x.2
  simp [Frame.array.sizeOf_spec] at *
  omega

/-- Are all simple/error payloads free of embedded CRLF pairs? Such payloads
occupy a single protocol line, which a round trip requires. -/
def Frame.crlfFree : Frame → Bool
  | .simple s => noCRLF s
  | .error s => noCRLF s
  | .integer _ => true
  | .bulk _ => true
  | .null => true
  | .array xs => (xs.attach.map (fun x => Frame.crlfFree x.1)).all id
decreasing_by
  have := List.sizeOf_lt_of_mem x.2
  simp [Frame.array.sizeOf_spec] at *
  omega

/-- Parse one frame at the front of the buffer (`Frame::parse`). -/
def Frame.parse (l : List Nat) : Except FrameError (Frame × List Nat) :=
  match parseCnt (l.length + 1) 1 l with
  | .ok (f :: _, r) => .ok (f, r)
  | .ok ([], _) => .error .other
  | .error e => .error e

/-- Model of `Connection::parse_frame` on the current buffer contents: run
`Frame::check`; on success re-parse the verified span and report the frame
together with the number of buffered bytes to advance past (the check
cursor's final position); on `Incomplete` report `none` without touching the
buffer; propagate protocol errors. -/
def Connection.parseFrame (buf : List Nat) : Except FrameError (Option (Frame × Nat)) :=
  match Frame.check buf with
  | .ok r =>
    match Frame.parse buf with
    | .ok (f, _) => .ok (some (f, buf.length - r.length))
    | .error e => .error e
  | .error .incomplete => .ok none
  | .error e => .error e

/-- Induction over frames that provides the inductive hypothesis for every
element of an array frame. -/
theorem Frame.inductionOn (P : Frame → Prop)
    (hs : ∀ s, P (.simple s)) (he : ∀ s, P (.error s)) (hi : ∀ n, P (.integer n))
    (hb : ∀ b, P (.bulk b)) (hn : P .null)
    (ha : ∀ xs, (∀ x ∈ xs, P x) → P (.array xs)) : ∀ f, P f := by
  intro f
  match f with
  | .simple s => exact hs s
  | .error s => exact he s
  | .integer n => exact hi n
  | .bulk b => exact hb b
  | .null => exact hn
  | .array xs => exact ha xs (fun x hx => Frame.inductionOn P hs he hi hb hn ha x)
termination_by f => sizeOf f
decreasing_by
  have := List.sizeOf_lt_of_mem hx
  simp [Frame.array.sizeOf_spec]
  omega

/-- Unfolding of `Frame.encode` on arrays without the `attach` artifact. -/
theorem Frame.encode_array (xs : List Frame) :
    Frame.encode (.array xs) = 42 :: (writeDecimal xs.length ++ (xs.map Frame.encode).flatten) := by
  simp [Frame.encode]

/-- Unfolding of `Frame.encOk` on arrays without the `attach` artifact. -/
theorem Frame.encOk_array (xs : List Frame) :
    Frame.encOk (.array xs) = (writeDecimalOk xs.length && (xs.map Frame.encOk).all id) := by
  simp [Frame.encOk]

/-- Unfolding of `Frame.crlfFree` on arrays without the `attach` artifact. -/
theorem Frame.crlfFree_array (xs : List Frame) :
    Frame.crlfFree (.array xs) = (xs.map Frame.crlfFree).all id := by
  simp [Frame.crlfFree]

/-! ### Line splitting and decimal lemmas -/

theorem noCRLF_cons {b : Nat} {l : List Nat} (h : noCRLF (b :: l) = true) : noCRLF l = true := by
  match l with
  | [] => rfl
  | c :: t =>
    rw [noCRLF] at h
    split at h
    · exact absurd h (by simp)
    · exact h

theorem splitLine_append {a : List Nat} (r : List Nat) (h : noCRLF a = true) :
    splitLine (a ++ 13 :: 10 :: r) = some (a, r) := by
  induction a with
  | nil => simp [splitLine]
  | cons b t ih =>
    have ht : noCRLF t = true := noCRLF_cons h
    cases t with
    | nil =>
      have hb : ¬(b = 13 ∧ (13 : Nat) = 10) := by simp
      simp only [List.nil_append, List.cons_append]
      rw [splitLine, if_neg hb]
      simp [splitLine]
    | cons c t2 =>
      have hbc : ¬(b = 13 ∧ c = 10) := by
        intro ⟨h1, h2⟩; subst h1; subst h2; simp [noCRLF] at h
      simp only [List.cons_append]
      rw [splitLine, if_neg hbc, ← List.cons_append, ih ht]

theorem splitLine_none {l : List Nat} (h : noCRLF l = true) : splitLine l = none := by
  match l with
  | [] => rfl
  | [_] => rfl
  | b :: c :: t =>
    have hbc : ¬(b = 13 ∧ c = 10) := by
      intro hh; rw [noCRLF, if_pos hh] at h; exact absurd h (by simp)
    have ht : noCRLF (c :: t) = true := noCRLF_cons h
    rw [splitLine, if_neg hbc, splitLine_none ht]

theorem splitLine_some {l a r : List Nat} (h : splitLine l = some (a, r)) :
    l = a ++ 13 :: 10 :: r ∧ noCRLF a = true := by
  match l with
  | [] => exact absurd h (by simp [splitLine])
  | [x] => exact absurd h (by simp [splitLine])
  | b :: c :: t =>
    rw [splitLine] at h
    split at h
    · rename_i hbc
      obtain ⟨h1, h2⟩ := hbc
      subst h1; subst h2
      obtain ⟨ha, hr⟩ : ([] : List Nat) = a ∧ t = r := by
        constructor
        · exact (Prod.mk.injEq _ _ _ _ ▸ (Option.some.injEq _ _ ▸ h)).1
        · exact (Prod.mk.injEq _ _ _ _ ▸ (Option.some.injEq _ _ ▸ h)).2
      subst ha; subst hr
      exact ⟨rfl, rfl⟩
    · rename_i hbc
      match hsl : splitLine (c :: t) with
      | none => rw [hsl] at h; exact absurd h (by simp)
      | some (line, rr) =>
        rw [hsl] at h
        obtain ⟨ha, hr⟩ : b :: line = a ∧ rr = r := by
          constructor
          · exact (Prod.mk.injEq _ _ _ _ ▸ (Option.some.injEq _ _ ▸ h)).1
          · exact (Prod.mk.injEq _ _ _ _ ▸ (Option.some.injEq _ _ ▸ h)).2
        subst ha; subst hr
        obtain ⟨heq, hnc⟩ := splitLine_some hsl
        refine ⟨by rw [List.cons_append, ← heq], ?_⟩
        cases line with
        | nil => rfl
        | cons d t2 =>
          have hdc : d = c := by
            have := congrArg List.head? heq
            simpa using this.symm
          subst hdc
          rw [noCRLF, if_neg hbc]
          exact hnc

theorem noCRLF_take {l : List Nat} (h : noCRLF l = true) (i : Nat) : noCRLF (l.take i) = true := by
  match l, i with
  | [], _ => simp [noCRLF]
  | _, 0 => simp [noCRLF]
  | [b], i + 1 => simp [List.take, noCRLF]
  | b :: c :: t, 1 => simp [List.take, noCRLF]
  | b :: c :: t, (i + 1) + 1 =>
    have hbc : ¬(b = 13 ∧ c = 10) := by
      intro hh; rw [noCRLF, if_pos hh] at h; exact absurd h (by simp)
    have ht : noCRLF (c :: t) = true := noCRLF_cons h
    have := noCRLF_take ht (i + 1)
    simp only [List.take] at this ⊢
    rw [noCRLF, if_neg hbc]
    exact this

theorem noCRLF_append_cr {l : List Nat} (h : noCRLF l = true) : noCRLF (l ++ [13]) = true := by
  match l with
  | [] => rfl
  | [b] =>
    have hne : ¬(b = 13 ∧ (13 : Nat) = 10) := by simp
    simp only [List.cons_append, List.nil_append]
    rw [noCRLF, if_neg hne]
    rfl
  | b :: c :: t =>
    have hbc : ¬(b = 13 ∧ c = 10) := by
      intro hh; rw [noCRLF, if_pos hh] at h; exact absurd h (by simp)
    have ht : noCRLF (c :: t) = true := noCRLF_cons h
    simp only [List.cons_append]
    rw [noCRLF, if_neg hbc]
    exact noCRLF_append_cr ht

/-- Taking fewer bytes than a full line (its text, CR and LF) leaves `get_line`
unable to find the terminator. -/
theorem splitLine_take_incomplete {a : List Nat} (r : List Nat) (h : noCRLF a = true)
    {i : Nat} (hi : i < a.length + 2) :
    splitLine ((a ++ 13 :: 10 :: r).take i) = none := by
  rcases Nat.lt_or_ge i (a.length + 1) with hlt | hge
  · have : (a ++ 13 :: 10 :: r).take i = a.take i := by
      rw [List.take_append_eq_append_take]
      have : i - a.length = 0 := by omega
      rw [this]
      simp
    rw [this]
    exact splitLine_none (noCRLF_take h i)
  · have hieq : i = a.length + 1 := by omega
    subst hieq
    have : (a ++ 13 :: 10 :: r).take (a.length + 1) = a ++ [13] := by
      rw [List.take_append_eq_append_take]
      have h1 : a.length + 1 - a.length = 1 := by omega
      rw [h1]
      simp
    rw [this]
    exact splitLine_none (noCRLF_append_cr h)

/-- Taking at least the full line keeps the split and truncates the remainder. -/
theorem splitLine_take_more {a : List Nat} (r : List Nat) (h : noCRLF a = true) (i : Nat) :
    splitLine ((a ++ 13 :: 10 :: r).take (a.length + 2 + i)) = some (a, r.take i) := by
  have : (a ++ 13 :: 10 :: r).take (a.length + 2 + i) = a ++ 13 :: 10 :: r.take i := by
    rw [List.take_append_eq_append_take]
    have h1 : a.length + 2 + i - a.length = 2 + i := by omega
    rw [h1]
    simp [List.take_cons]
    omega
  rw [this]
  exact splitLine_append (r.take i) h

theorem splitLine_length {l a r : List Nat} (h : splitLine l = some (a, r)) :
    l.length = a.length + 2 + r.length := by
  obtain ⟨heq, -⟩ := splitLine_some h
  subst heq
  simp
  omega

/-! ### Decimal digits -/

theorem decDigits_mem {n b : Nat} (h : b ∈ decDigits n) : 48 ≤ b ∧ b ≤ 57 := by
  rw [decDigits] at h
  split at h
  · rename_i hn
    simp at h
    omega
  · rename_i hn
    rcases List.mem_append.mp h with h1 | h2
    · exact decDigits_mem h1
    · simp at h2
      have := Nat.mod_lt n (show 0 < 10 by omega)
      omega

theorem decDigits_ne_nil (n : Nat) : decDigits n ≠ [] := by
  rw [decDigits]
  split
  · simp
  · simp

theorem noCRLF_of_no_cr {l : List Nat} (h : ∀ b ∈ l, b ≠ 13) : noCRLF l = true := by
  match l with
  | [] => rfl
  | [_] => rfl
  | b :: c :: t =>
    have hb : b ≠ 13 := h b (by simp)
    rw [noCRLF, if_neg (by intro hh; exact hb hh.1)]
    exact noCRLF_of_no_cr (fun x hx => h x (List.mem_cons_of_mem b hx))

theorem decDigits_noCRLF (n : Nat) : noCRLF (decDigits n) = true :=
  noCRLF_of_no_cr (fun b hb => by have := decDigits_mem hb; omega)

theorem atoiAux_append {l1 : List Nat} (l2 : List Nat) (acc : Nat)
    (h : ∀ b ∈ l1, isDigitByte b = true) :
    atoiAux (l1 ++ l2) acc = atoiAux l2 (atoiAux l1 acc) := by
  induction l1 generalizing acc with
  | nil => simp [atoiAux]
  | cons b t ih =>
    have hb : isDigitByte b = true := h b (by simp)
    simp only [List.cons_append]
    rw [atoiAux, if_pos hb, atoiAux, if_pos hb]
    exact ih _ (fun x hx => h x (List.mem_cons_of_mem b hx))

/-- Value of a digit string under the `atoi` loop. -/
def digitsVal (l : List Nat) : Nat := atoiAux l 0

theorem atoi_digits {l : List Nat} (hne : l ≠ []) (h : ∀ b ∈ l, isDigitByte b = true) :
    atoi l = some (digitsVal l) := by
  match l with
  | [] => exact absurd rfl hne
  | b :: t =>
    have hb : isDigitByte b = true := h b (by simp)
    rw [atoi, if_pos hb]
    unfold digitsVal
    rw [atoiAux, if_pos hb]
    simp

theorem digitsVal_decDigits (n : Nat) : digitsVal (decDigits n) = n := by
  rw [decDigits]
  split
  · rename_i hn
    unfold digitsVal
    rw [atoiAux]
    have : isDigitByte (48 + n) = true := by unfold isDigitByte; simp; omega
    rw [if_pos this, atoiAux]
    omega
  · rename_i hn
    unfold digitsVal
    rw [atoiAux_append _ _ (fun b hb => by
      have := decDigits_mem hb
      unfold isDigitByte
      simp
      omega)]
    have ih := digitsVal_decDigits (n / 10)
    unfold digitsVal at ih
    rw [ih]
    rw [atoiAux]
    have : isDigitByte (48 + n % 10) = true := by
      unfold isDigitByte
      simp
      have := Nat.mod_lt n (show 0 < 10 by omega)
      omega
    rw [if_pos this, atoiAux]
    omega

theorem atoi_decDigits (n : Nat) : atoi (decDigits n) = some n := by
  rw [atoi_digits (decDigits_ne_nil n) (fun b hb => by
    have := decDigits_mem hb
    unfold isDigitByte
    simp
    omega)]
  rw [digitsVal_decDigits]

/-! ### getDec lemmas -/

theorem getDec_writeDecimal (n : Nat) (r : List Nat) :
    getDec (writeDecimal n ++ r) = .ok (n, r) := by
  unfold getDec writeDecimal
  have : decDigits n ++ [13, 10] ++ r = decDigits n ++ 13 :: 10 :: r := by simp
  rw [this, splitLine_append r (decDigits_noCRLF n)]
  simp only [atoi_decDigits]

theorem getDec_some {l : List Nat} {v : Nat} {r : List Nat} (h : getDec l = .ok (v, r)) :
    ∃ line, l = line ++ 13 :: 10 :: r ∧ noCRLF line = true ∧ atoi line = some v ∧ line ≠ [] := by
  unfold getDec at h
  split at h
  · exact absurd h (by simp)
  · rename_i line rr hsl
    split at h
    · exact absurd h (by simp)
    · rename_i v2 hat
      obtain ⟨hv, hr⟩ : v2 = v ∧ rr = r := by
        constructor
        · exact (Prod.mk.injEq _ _ _ _ ▸ (Except.ok.injEq _ _ ▸ h)).1
        · exact (Prod.mk.injEq _ _ _ _ ▸ (Except.ok.injEq _ _ ▸ h)).2
      subst hv; subst hr
      obtain ⟨heq, hnc⟩ := splitLine_some hsl
      refine ⟨line, heq, hnc, hat, ?_⟩
      intro hne
      subst hne
      exact absurd hat (by simp [atoi])

theorem getDec_length {l : List Nat} {v : Nat} {r : List Nat} (h : getDec l = .ok (v, r)) :
    r.length + 3 ≤ l.length := by
  obtain ⟨line, heq, -, -, hne⟩ := getDec_some h
  subst heq
  have : 1 ≤ line.length := by
    cases line with
    | nil => exact absurd rfl hne
    | cons a t => simp
  simp
  omega

theorem getDec_append {line : List Nat} (r : List Nat) {v : Nat}
    (hnc : noCRLF line = true) (hat : atoi line = some v) :
    getDec (line ++ 13 :: 10 :: r) = .ok (v, r) := by
  unfold getDec
  rw [splitLine_append r hnc]
  simp [hat]

theorem getDec_take_incomplete {line : List Nat} (r : List Nat) (hnc : noCRLF line = true)
    {i : Nat} (hi : i < line.length + 2) :
    getDec ((line ++ 13 :: 10 :: r).take i) = .error .incomplete := by
  unfold getDec
  rw [splitLine_take_incomplete r hnc hi]

theorem getDec_take_more {line : List Nat} (r : List Nat) {v : Nat}
    (hnc : noCRLF line = true) (hat : atoi line = some v) (i : Nat) :
    getDec ((line ++ 13 :: 10 :: r).take (line.length + 2 + i)) = .ok (v, r.take i) := by
  unfold getDec
  rw [splitLine_take_more r hnc i]
  simp [hat]

theorem skipBytes_ok {n : Nat} {l r : List Nat} (h : skipBytes n l = .ok r) :
    n ≤ l.length ∧ r = l.drop n := by
  unfold skipBytes at h
  split at h
  · exact absurd h (by simp)
  · rename_i hlen
    exact ⟨by omega, ((Except.ok.injEq _ _ ▸ h)).symm⟩

theorem skipBytes_append {c : List Nat} (s : List Nat) {n : Nat} (h : c.length = n) :
    skipBytes n (c ++ s) = .ok s := by
  unfold skipBytes
  rw [if_neg (by simp; omega)]
  subst h
  simp

theorem skipBytes_take_incomplete {n i : Nat} (l : List Nat) (hi : i < n) :
    skipBytes n (l.take i) = .error .incomplete := by
  unfold skipBytes
  rw [if_pos]
  have : (l.take i).length ≤ i := by simp
  omega

theorem skipBytes_take_more {c : List Nat} (s : List Nat) {n : Nat} (h : c.length = n) (i : Nat) :
    skipBytes n ((c ++ s).take (n + i)) = .ok (s.take i) := by
  have heq : (c ++ s).take (n + i) = c ++ s.take i := by
    rw [List.take_append_eq_append_take]
    have h1 : n + i - c.length = i := by omega
    rw [h1, List.take_of_length_le (by omega)]
  rw [heq]
  unfold skipBytes
  rw [if_neg (by simp; omega)]
  rw [List.drop_append_eq_append_drop]
  rw [List.drop_of_length_le (by omega)]
  simp [h]

/-! ### Fuel bounds for check and parse -/

theorem checkCnt_suffix : ∀ fuel n (l r : List Nat),
    checkCnt fuel n l = .ok r → r.length ≤ l.length := by
  intro fuel
  induction fuel with
  | zero =>
    intro n l r h
    cases n with
    | zero => rw [checkCnt] at h; simp at h; simp [h]
    | succ n => exact absurd h (by rw [checkCnt]; simp)
  | succ fuel ih =>
    intro n l r h
    cases n with
    | zero => rw [checkCnt] at h; simp at h; simp [h]
    | succ n =>
      cases l with
      | nil => exact absurd h (by rw [checkCnt]; simp)
      | cons b rest =>
        rw [checkCnt] at h
        split at h
        · -- '+'/'-'
          split at h
          · rename_i r1 hsl
            have hlen := splitLine_length hsl
            have := ih n _ r h
            simp at *
            omega
          · exact absurd h (by simp)
        · split at h
          · -- ':'
            split at h
            · rename_i p v r1 hgd
              have hlen := getDec_length hgd
              have := ih n _ r h
              simp at *
              omega
            · exact absurd h (by simp)
          · split at h
            · -- '$'
              split at h
              · exact absurd h (by simp)
              · split at h
                · -- null marker: skip 4
                  split at h
                  · rename_i r1 hsk
                    obtain ⟨hle, hdr⟩ := skipBytes_ok hsk
                    have := ih n _ r h
                    subst hdr
                    simp at *
                    omega
                  · exact absurd h (by simp)
                · -- bulk: getDec then skip
                  split at h
                  · rename_i p len r1 hgd
                    split at h
                    · rename_i r2 hsk
                      have hlen := getDec_length hgd
                      obtain ⟨hle, hdr⟩ := skipBytes_ok hsk
                      have := ih n _ r h
                      subst hdr
                      simp at *
                      omega
                    · exact absurd h (by simp)
                  · exact absurd h (by simp)
            · split at h
              · -- '*'
                split at h
                · rename_i p m r1 hgd
                  split at h
                  · rename_i r2 hin
                    have hlen := getDec_length hgd
                    have h1 := ih m _ r2 hin
                    have h2 := ih n _ r h
                    simp at *
                    omega
                  · exact absurd h (by simp)
                · exact absurd h (by simp)
              · exact absurd h (by simp)

/-- The result of `checkCnt` does not depend on the fuel once it exceeds the
number of remaining bytes, since every recursive step consumes at least one. -/
theorem checkCnt_fuel : ∀ fuel1 fuel2 n (l : List Nat), l.length < fuel1 → l.length < fuel2 →
    checkCnt fuel1 n l = checkCnt fuel2 n l := by
  intro fuel1
  induction fuel1 with
  | zero => intro fuel2 n l h1 h2; omega
  | succ fuel1 ih =>
    intro fuel2 n l h1 h2
    cases n with
    | zero =>
      cases fuel2 with
      | zero => omega
      | succ fuel2 => rw [checkCnt, checkCnt]
    | succ n =>
      cases fuel2 with
      | zero => omega
      | succ fuel2 =>
        cases l with
        | nil => rw [checkCnt, checkCnt]
        | cons b rest =>
          rw [checkCnt]
          rw [checkCnt]
          have hrest1 : rest.length < fuel1 := by simp at h1; omega
          have hrest2 : rest.length < fuel2 := by simp at h2; omega
          by_cases h43 : b = 43 ∨ b = 45
          · rw [if_pos h43, if_pos h43]
            cases hsl : splitLine rest with
            | none => rfl
            | some p =>
              obtain ⟨line, r1⟩ := p
              have hlen := splitLine_length hsl
              exact ih fuel2 n r1 (by omega) (by omega)
          · rw [if_neg h43, if_neg h43]
            by_cases h58 : b = 58
            · rw [if_pos h58, if_pos h58]
              cases hgd : getDec rest with
              | error e => rfl
              | ok p =>
                obtain ⟨v, r1⟩ := p
                have hlen := getDec_length hgd
                exact ih fuel2 n r1 (by omega) (by omega)
            · rw [if_neg h58, if_neg h58]
              by_cases h36 : b = 36
              · rw [if_pos h36, if_pos h36]
                cases hpk : peekByte rest with
                | error e => rfl
                | ok c =>
                  dsimp only
                  by_cases h45 : c = 45
                  · rw [if_pos h45, if_pos h45]
                    cases hsk : skipBytes 4 rest with
                    | error e => rfl
                    | ok r1 =>
                      obtain ⟨hle, hdr⟩ := skipBytes_ok hsk
                      have : r1.length ≤ rest.length := by subst hdr; simp
                      exact ih fuel2 n r1 (by omega) (by omega)
                  · rw [if_neg h45, if_neg h45]
                    cases hgd : getDec rest with
                    | error e => rfl
                    | ok p =>
                      obtain ⟨len, r1⟩ := p
                      dsimp only
                      have hlen := getDec_length hgd
                      cases hsk : skipBytes (len + 2) r1 with
                      | error e => rfl
                      | ok r2 =>
                        obtain ⟨hle, hdr⟩ := skipBytes_ok hsk
                        have : r2.length ≤ r1.length := by subst hdr; simp
                        exact ih fuel2 n r2 (by omega) (by omega)
              · rw [if_neg h36, if_neg h36]
                by_cases h42 : b = 42
                · rw [if_pos h42, if_pos h42]
                  cases hgd : getDec rest with
                  | error e => rfl
                  | ok p =>
                    obtain ⟨m, r1⟩ := p
                    dsimp only
                    have hlen := getDec_length hgd
                    rw [ih fuel2 m r1 (by omega) (by omega)]
                    cases hin : checkCnt fuel2 m r1 with
                    | error e => rfl
                    | ok r2 =>
                      have hsuf := checkCnt_suffix fuel2 m r1 r2 hin
                      exact ih fuel2 n r2 (by omega) (by omega)
                · rw [if_neg h42, if_neg h42]

theorem parseCnt_suffix : ∀ fuel n (l : List Nat) fs (r : List Nat),
    parseCnt fuel n l = .ok (fs, r) → r.length ≤ l.length := by
  intro fuel
  induction fuel with
  | zero =>
    intro n l fs r h
    cases n with
    | zero => rw [parseCnt] at h; simp at h; simp [h]
    | succ n => exact absurd h (by rw [parseCnt]; simp)
  | succ fuel ih =>
    intro n l fs r h
    cases n with
    | zero => rw [parseCnt] at h; simp at h; simp [h]
    | succ n =>
      cases l with
      | nil => exact absurd h (by rw [parseCnt]; simp)
      | cons b rest =>
        rw [parseCnt] at h
        split at h
        · -- '+'
          split at h
          · rename_i line r1 hsl
            split at h
            · rename_i fs1 r2 hin
              have hlen := splitLine_length hsl
              have := ih n _ fs1 r2 hin
              simp at h
              obtain ⟨-, hr⟩ := h
              subst hr
              simp at *
              omega
            · exact absurd h (by simp)
          · exact absurd h (by simp)
        · split at h
          · -- '-'
            split at h
            · rename_i line r1 hsl
              split at h
              · rename_i fs1 r2 hin
                have hlen := splitLine_length hsl
                have := ih n _ fs1 r2 hin
                simp at h
                obtain ⟨-, hr⟩ := h
                subst hr
                simp at *
                omega
              · exact absurd h (by simp)
            · exact absurd h (by simp)
          · split at h
            · -- ':'
              split at h
              · rename_i p v r1 hgd
                split at h
                · rename_i fs1 r2 hin
                  have hlen := getDec_length hgd
                  have := ih n _ fs1 r2 hin
                  simp at h
                  obtain ⟨-, hr⟩ := h
                  subst hr
                  simp at *
                  omega
                · exact absurd h (by simp)
              · exact absurd h (by simp)
            · split at h
              · -- '$'
                split at h
                · exact absurd h (by simp)
                · split at h
                  · -- null marker
                    split at h
                    · rename_i line r1 hsl
                      split at h
                      · split at h
                        · rename_i fs1 r2 hin
                          have hlen := splitLine_length hsl
                          have := ih n _ fs1 r2 hin
                          simp at h
                          obtain ⟨-, hr⟩ := h
                          subst hr
                          simp at *
                          omega
                        · exact absurd h (by simp)
                      · exact absurd h (by simp)
                    · exact absurd h (by simp)
                  · -- bulk
                    split at h
                    · rename_i p len r1 hgd
                      split at h
                      · exact absurd h (by simp)
                      · split at h
                        · rename_i fs1 r2 hin
                          have hlen := getDec_length hgd
                          have := ih n _ fs1 r2 hin
                          have hdl : (r1.drop (len + 2)).length ≤ r1.length := by simp
                          simp at h
                          obtain ⟨-, hr⟩ := h
                          subst hr
                          simp at *
                          omega
                        · exact absurd h (by simp)
                    · exact absurd h (by simp)
              · split at h
                · -- '*'
                  split at h
                  · rename_i p m r1 hgd
                    split at h
                    · rename_i es r2 hin
                      split at h
                      · rename_i fs1 r3 hin2
                        have hlen := getDec_length hgd
                        have h1 := ih m _ es r2 hin
                        have h2 := ih n _ fs1 r3 hin2
                        simp at h
                        obtain ⟨-, hr⟩ := h
                        subst hr
                        simp at *
                        omega
                      · exact absurd h (by simp)
                    · exact absurd h (by simp)
                  · exact absurd h (by simp)
                · exact absurd h (by simp)

/-- The result of `parseCnt` does not depend on the fuel once it exceeds the
number of remaining bytes. -/
theorem parseCnt_fuel : ∀ fuel1 fuel2 n (l : List Nat), l.length < fuel1 → l.length < fuel2 →
    parseCnt fuel1 n l = parseCnt fuel2 n l := by
  intro fuel1
  induction fuel1 with
  | zero => intro fuel2 n l h1 h2; omega
  | succ fuel1 ih =>
    intro fuel2 n l h1 h2
    cases n with
    | zero =>
      cases fuel2 with
      | zero => omega
      | succ fuel2 => rw [parseCnt, parseCnt]
    | succ n =>
      cases fuel2 with
      | zero => omega
      | succ fuel2 =>
        cases l with
        | nil => rw [parseCnt, parseCnt]
        | cons b rest =>
          rw [parseCnt]
          rw [parseCnt]
          have hrest1 : rest.length < fuel1 := by simp at h1; omega
          have hrest2 : rest.length < fuel2 := by simp at h2; omega
          by_cases h43 : b = 43
          · rw [if_pos h43, if_pos h43]
            cases hsl : splitLine rest with
            | none => rfl
            | some p =>
              obtain ⟨line, r1⟩ := p
              dsimp only
              have hlen := splitLine_length hsl
              rw [ih fuel2 n r1 (by omega) (by omega)]
          · rw [if_neg h43, if_neg h43]
            by_cases h45 : b = 45
            · rw [if_pos h45, if_pos h45]
              cases hsl : splitLine rest with
              | none => rfl
              | some p =>
                obtain ⟨line, r1⟩ := p
                dsimp only
                have hlen := splitLine_length hsl
                rw [ih fuel2 n r1 (by omega) (by omega)]
            · rw [if_neg h45, if_neg h45]
              by_cases h58 : b = 58
              · rw [if_pos h58, if_pos h58]
                cases hgd : getDec rest with
                | error e => rfl
                | ok p =>
                  obtain ⟨v, r1⟩ := p
                  dsimp only
                  have hlen := getDec_length hgd
                  rw [ih fuel2 n r1 (by omega) (by omega)]
              · rw [if_neg h58, if_neg h58]
                by_cases h36 : b = 36
                · rw [if_pos h36, if_pos h36]
                  cases hpk : peekByte rest with
                  | error e => rfl
                  | ok c =>
                    dsimp only
                    by_cases hc : c = 45
                    · rw [if_pos hc, if_pos hc]
                      cases hsl : splitLine rest with
                      | none => rfl
                      | some p =>
                        obtain ⟨line, r1⟩ := p
                        dsimp only
                        have hlen := splitLine_length hsl
                        by_cases hline : line = [45, 49]
                        · rw [if_pos hline, if_pos hline]
                          rw [ih fuel2 n r1 (by omega) (by omega)]
                        · rw [if_neg hline, if_neg hline]
                    · rw [if_neg hc, if_neg hc]
                      cases hgd : getDec rest with
                      | error e => rfl
                      | ok p =>
                        obtain ⟨len, r1⟩ := p
                        dsimp only
                        have hlen := getDec_length hgd
                        by_cases hsh : r1.length < len + 2
                        · rw [if_pos hsh, if_pos hsh]
                        · rw [if_neg hsh, if_neg hsh]
                          have hdl : (r1.drop (len + 2)).length ≤ r1.length := by simp
                          rw [ih fuel2 n (r1.drop (len + 2)) (by omega) (by omega)]
                · rw [if_neg h36, if_neg h36]
                  by_cases h42 : b = 42
                  · rw [if_pos h42, if_pos h42]
                    cases hgd : getDec rest with
                    | error e => rfl
                    | ok p =>
                      obtain ⟨m, r1⟩ := p
                      dsimp only
                      have hlen := getDec_length hgd
                      rw [ih fuel2 m r1 (by omega) (by omega)]
                      cases hin : parseCnt fuel2 m r1 with
                      | error e => rfl
                      | ok q =>
                        obtain ⟨es, r2⟩ := q
                        dsimp only
                        have hsuf := parseCnt_suffix fuel2 m r1 es r2 hin
                        rw [ih fuel2 n r2 (by omega) (by omega)]
                  · rw [if_neg h42, if_neg h42]

/-! ### Check and parse on encoded frames -/

theorem decDigits_cons (n : Nat) : ∃ d ds, decDigits n = d :: ds ∧ 48 ≤ d ∧ d ≤ 57 := by
  cases hd : decDigits n with
  | nil => exact absurd hd (decDigits_ne_nil n)
  | cons d ds =>
    have : d ∈ decDigits n := by rw [hd]; simp
    have := decDigits_mem this
    exact ⟨d, ds, rfl, this.1, this.2⟩

theorem writeDecimal_length (n : Nat) : 3 ≤ (writeDecimal n).length := by
  unfold writeDecimal
  obtain ⟨d, ds, hd, -⟩ := decDigits_cons n
  rw [hd]
  simp

theorem encode_length (f : Frame) : 3 ≤ (Frame.encode f).length := by
  cases f with
  | simple s => simp [Frame.encode]
  | error s => simp [Frame.encode]
  | integer n =>
    have := writeDecimal_length n
    simp [Frame.encode]
    omega
  | bulk b =>
    have := writeDecimal_length b.length
    simp [Frame.encode]
    omega
  | null => simp [Frame.encode]
  | array xs =>
    have := writeDecimal_length xs.length
    rw [Frame.encode_array]
    simp
    omega

/-- Checking `xs.length` consecutive frames over their concatenated encodings
consumes exactly those encodings. -/
theorem checkCnt_encode_list (xs : List Frame)
    (hx : ∀ x ∈ xs, Frame.crlfFree x = true →
      ∀ fuel n (rest : List Nat), (Frame.encode x).length + rest.length < fuel →
      checkCnt fuel (n + 1) (Frame.encode x ++ rest) = checkCnt fuel n rest)
    (hcf : ∀ x ∈ xs, Frame.crlfFree x = true) :
    ∀ fuel (rest : List Nat), ((xs.map Frame.encode).flatten).length + rest.length < fuel →
      checkCnt fuel xs.length ((xs.map Frame.encode).flatten ++ rest) = .ok rest := by
  induction xs with
  | nil =>
    intro fuel rest hb
    simp only [List.map_nil, List.flatten_nil, List.nil_append, List.length_nil]
    rw [checkCnt]
  | cons x xs ih =>
    intro fuel rest hb
    simp only [List.map_cons, List.flatten_cons, List.length_cons] at *
    rw [List.append_assoc]
    have hb1 : (Frame.encode x).length + ((xs.map Frame.encode).flatten ++ rest).length < fuel := by
      simp at *
      omega
    rw [hx x (by simp) (hcf x (by simp)) _ _ _ hb1]
    exact ih (fun y hy => hx y (by simp [hy])) (fun y hy => hcf y (by simp [hy])) fuel rest
      (by simp at *; omega)

/-- Checking an encoded frame at the head of the buffer consumes exactly its
encoding (counts of pending sibling frames are threaded through). -/
theorem checkCnt_encode : ∀ f : Frame, Frame.crlfFree f = true →
    ∀ fuel n (rest : List Nat), (Frame.encode f).length + rest.length < fuel →
    checkCnt fuel (n + 1) (Frame.encode f ++ rest) = checkCnt fuel n rest := by
  intro f
  induction f using Frame.inductionOn with
  | hs s =>
    intro hcf fuel n rest hb
    cases fuel with
    | zero => omega
    | succ fuel =>
      simp only [Frame.encode, List.cons_append]
      rw [checkCnt]
      rw [if_pos (Or.inl rfl)]
      have hsh : (s ++ [13, 10]) ++ rest = s ++ 13 :: 10 :: rest := by simp
      rw [hsh, splitLine_append rest (by simpa [Frame.crlfFree] using hcf)]
      exact checkCnt_fuel fuel (fuel + 1) n rest
        (by simp [Frame.encode] at hb; omega) (by simp [Frame.encode] at hb; omega)
  | he s =>
    intro hcf fuel n rest hb
    cases fuel with
    | zero => omega
    | succ fuel =>
      simp only [Frame.encode, List.cons_append]
      rw [checkCnt]
      rw [if_pos (Or.inr rfl)]
      have hsh : (s ++ [13, 10]) ++ rest = s ++ 13 :: 10 :: rest := by simp
      rw [hsh, splitLine_append rest (by simpa [Frame.crlfFree] using hcf)]
      exact checkCnt_fuel fuel (fuel + 1) n rest
        (by simp [Frame.encode] at hb; omega) (by simp [Frame.encode] at hb; omega)
  | hi v =>
    intro hcf fuel n rest hb
    cases fuel with
    | zero => omega
    | succ fuel =>
      simp only [Frame.encode, List.cons_append]
      rw [checkCnt]
      rw [if_neg (by simp), if_pos rfl]
      rw [getDec_writeDecimal]
      exact checkCnt_fuel fuel (fuel + 1) n rest
        (by simp [Frame.encode] at hb; omega) (by simp [Frame.encode] at hb; omega)
  | hb bb =>
    intro hcf fuel n rest hb
    cases fuel with
    | zero => omega
    | succ fuel =>
      simp only [Frame.encode, List.cons_append]
      rw [checkCnt]
      rw [if_neg (by simp), if_neg (by simp), if_pos rfl]
      have hsh : (writeDecimal bb.length ++ bb ++ [13, 10]) ++ rest
          = writeDecimal bb.length ++ (bb ++ 13 :: 10 :: rest) := by simp
      rw [hsh]
      obtain ⟨d, ds, hd, hd1, hd2⟩ := decDigits_cons bb.length
      have hpk : peekByte (writeDecimal bb.length ++ (bb ++ 13 :: 10 :: rest)) = .ok d := by
        unfold writeDecimal
        rw [hd]
        rfl
      rw [hpk]
      dsimp only
      rw [if_neg (by omega)]
      rw [getDec_writeDecimal]
      dsimp only
      have hskip : skipBytes (bb.length + 2) (bb ++ 13 :: 10 :: rest) = .ok rest := by
        have hsh2 : bb ++ 13 :: 10 :: rest = (bb ++ [13, 10]) ++ rest := by simp
        rw [hsh2]
        exact skipBytes_append rest (by simp)
      rw [hskip]
      exact checkCnt_fuel fuel (fuel + 1) n rest
        (by simp [Frame.encode] at hb; omega) (by simp [Frame.encode] at hb; omega)
  | hn =>
    intro hcf fuel n rest hb
    cases fuel with
    | zero => omega
    | succ fuel =>
      simp only [Frame.encode, List.cons_append, List.nil_append]
      rw [checkCnt]
      rw [if_neg (by simp), if_neg (by simp), if_pos rfl]
      have hpk : peekByte (45 :: 49 :: 13 :: 10 :: rest) = .ok 45 := rfl
      rw [hpk]
      dsimp only
      rw [if_pos rfl]
      have hskip : skipBytes 4 (45 :: 49 :: 13 :: 10 :: rest) = .ok rest := by
        have hsh : (45 :: 49 :: 13 :: 10 :: rest : List Nat) = [45, 49, 13, 10] ++ rest := rfl
        rw [hsh]
        exact skipBytes_append rest (by simp)
      rw [hskip]
      exact checkCnt_fuel fuel (fuel + 1) n rest
        (by simp [Frame.encode] at hb; omega) (by simp [Frame.encode] at hb; omega)
  | ha xs ihs =>
    intro hcf fuel n rest hb
    cases fuel with
    | zero => omega
    | succ fuel =>
      have hwd := writeDecimal_length xs.length
      rw [Frame.encode_array] at hb ⊢
      simp only [List.cons_append]
      rw [checkCnt]
      rw [if_neg (by simp), if_neg (by simp), if_neg (by simp), if_pos rfl]
      have hsh : (writeDecimal xs.length ++ (xs.map Frame.encode).flatten) ++ rest
          = writeDecimal xs.length ++ ((xs.map Frame.encode).flatten ++ rest) := by simp
      rw [hsh, getDec_writeDecimal]
      dsimp only
      have hcfs : ∀ x ∈ xs, Frame.crlfFree x = true := by
        intro x hxmem
        rw [Frame.crlfFree_array] at hcf
        simp [List.all_eq_true] at hcf
        exact hcf x hxmem
      rw [checkCnt_encode_list xs ihs hcfs fuel rest (by simp at hb ⊢; omega)]
      exact checkCnt_fuel fuel (fuel + 1) n rest
        (by simp at hb; omega) (by simp at hb; omega)

/-- Parsing `xs.length` consecutive frames over their concatenated encodings
yields exactly those frames. -/
theorem parseCnt_encode_list (xs : List Frame)
    (hx : ∀ x ∈ xs, Frame.crlfFree x = true →
      ∀ fuel n (rest : List Nat), (Frame.encode x).length + rest.length < fuel →
      parseCnt fuel (n + 1) (Frame.encode x ++ rest) =
        Except.map (fun p => (x :: p.1, p.2)) (parseCnt fuel n rest))
    (hcf : ∀ x ∈ xs, Frame.crlfFree x = true) :
    ∀ fuel (rest : List Nat), ((xs.map Frame.encode).flatten).length + rest.length < fuel →
      parseCnt fuel xs.length ((xs.map Frame.encode).flatten ++ rest) = .ok (xs, rest) := by
  induction xs with
  | nil =>
    intro fuel rest hb
    simp only [List.map_nil, List.flatten_nil, List.nil_append, List.length_nil]
    rw [parseCnt]
  | cons x xs ih =>
    intro fuel rest hb
    simp only [List.map_cons, List.flatten_cons, List.length_cons] at *
    rw [List.append_assoc]
    have hb1 : (Frame.encode x).length + ((xs.map Frame.encode).flatten ++ rest).length < fuel := by
      simp at *
      omega
    rw [hx x (by simp) (hcf x (by simp)) _ _ _ hb1]
    rw [ih (fun y hy => hx y (by simp [hy])) (fun y hy => hcf y (by simp [hy])) fuel rest
      (by simp at *; omega)]
    rfl

/-- Parsing an encoded frame at the head of the buffer yields the frame back
and continues after its encoding. -/
theorem parseCnt_encode : ∀ f : Frame, Frame.crlfFree f = true →
    ∀ fuel n (rest : List Nat), (Frame.encode f).length + rest.length < fuel →
    parseCnt fuel (n + 1) (Frame.encode f ++ rest) =
      Except.map (fun p => (f :: p.1, p.2)) (parseCnt fuel n rest) := by
  intro f
  induction f using Frame.inductionOn with
  | hs s =>
    intro hcf fuel n rest hb
    cases fuel with
    | zero => omega
    | succ fuel =>
      simp only [Frame.encode, List.cons_append]
      rw [parseCnt]
      rw [if_pos rfl]
      have hsh : (s ++ [13, 10]) ++ rest = s ++ 13 :: 10 :: rest := by simp
      rw [hsh, splitLine_append rest (by simpa [Frame.crlfFree] using hcf)]
      dsimp only
      rw [parseCnt_fuel fuel (fuel + 1) n rest
        (by simp [Frame.encode] at hb; omega) (by simp [Frame.encode] at hb; omega)]
      cases parseCnt (fuel + 1) n rest with
      | error e => rfl
      | ok p => rfl
  | he s =>
    intro hcf fuel n rest hb
    cases fuel with
    | zero => omega
    | succ fuel =>
      simp only [Frame.encode, List.cons_append]
      rw [parseCnt]
      rw [if_neg (by simp), if_pos rfl]
      have hsh : (s ++ [13, 10]) ++ rest = s ++ 13 :: 10 :: rest := by simp
      rw [hsh, splitLine_append rest (by simpa [Frame.crlfFree] using hcf)]
      dsimp only
      rw [parseCnt_fuel fuel (fuel + 1) n rest
        (by simp [Frame.encode] at hb; omega) (by simp [Frame.encode] at hb; omega)]
      cases parseCnt (fuel + 1) n rest with
      | error e => rfl
      | ok p => rfl
  | hi v =>
    intro hcf fuel n rest hb
    cases fuel with
    | zero => omega
    | succ fuel =>
      simp only [Frame.encode, List.cons_append]
      rw [parseCnt]
      rw [if_neg (by simp), if_neg (by simp), if_pos rfl]
      rw [getDec_writeDecimal]
      dsimp only
      rw [parseCnt_fuel fuel (fuel + 1) n rest
        (by simp [Frame.encode] at hb; omega) (by simp [Frame.encode] at hb; omega)]
      cases parseCnt (fuel + 1) n rest with
      | error e => rfl
      | ok p => rfl
  | hb bb =>
    intro hcf fuel n rest hb
    cases fuel with
    | zero => omega
    | succ fuel =>
      simp only [Frame.encode, List.cons_append]
      rw [parseCnt]
      rw [if_neg (by simp), if_neg (by simp), if_neg (by simp), if_pos rfl]
      have hsh : (writeDecimal bb.length ++ bb ++ [13, 10]) ++ rest
          = writeDecimal bb.length ++ (bb ++ 13 :: 10 :: rest) := by simp
      rw [hsh]
      obtain ⟨d, ds, hd, hd1, hd2⟩ := decDigits_cons bb.length
      have hpk : peekByte (writeDecimal bb.length ++ (bb ++ 13 :: 10 :: rest)) = .ok d := by
        unfold writeDecimal
        rw [hd]
        rfl
      rw [hpk]
      dsimp only
      rw [if_neg (by omega)]
      rw [getDec_writeDecimal]
      dsimp only
      rw [if_neg (by simp)]
      have hsh2 : bb ++ 13 :: 10 :: rest = (bb ++ [13, 10]) ++ rest := by simp
      have hdrop : (bb ++ 13 :: 10 :: rest).drop (bb.length + 2) = rest := by
        rw [hsh2]
        exact List.drop_left' (by simp)
      have htake : (bb ++ 13 :: 10 :: rest).take bb.length = bb := by
        rw [hsh2, List.append_assoc]
        exact List.take_left' rfl
      rw [hdrop, htake]
      rw [parseCnt_fuel fuel (fuel + 1) n rest
        (by simp [Frame.encode] at hb; omega) (by simp [Frame.encode] at hb; omega)]
      cases parseCnt (fuel + 1) n rest with
      | error e => rfl
      | ok p => rfl
  | hn =>
    intro hcf fuel n rest hb
    cases fuel with
    | zero => omega
    | succ fuel =>
      simp only [Frame.encode, List.cons_append, List.nil_append]
      rw [parseCnt]
      rw [if_neg (by simp), if_neg (by simp), if_neg (by simp), if_pos rfl]
      have hpk : peekByte (45 :: 49 :: 13 :: 10 :: rest) = .ok 45 := rfl
      rw [hpk]
      dsimp only
      rw [if_pos rfl]
      have hsl : splitLine (45 :: 49 :: 13 :: 10 :: rest) = some ([45, 49], rest) := by
        have hsh : (45 :: 49 :: 13 :: 10 :: rest : List Nat) = [45, 49] ++ 13 :: 10 :: rest := rfl
        rw [hsh]
        exact splitLine_append rest (by rfl)
      rw [hsl]
      dsimp only
      rw [if_pos rfl]
      rw [parseCnt_fuel fuel (fuel + 1) n rest
        (by simp [Frame.encode] at hb; omega) (by simp [Frame.encode] at hb; omega)]
      cases parseCnt (fuel + 1) n rest with
      | error e => rfl
      | ok p => rfl
  | ha xs ihs =>
    intro hcf fuel n rest hb
    cases fuel with
    | zero => omega
    | succ fuel =>
      have hwd := writeDecimal_length xs.length
      rw [Frame.encode_array] at hb ⊢
      simp only [List.cons_append]
      rw [parseCnt]
      rw [if_neg (by simp), if_neg (by simp), if_neg (by simp), if_neg (by simp), if_pos rfl]
      have hsh : (writeDecimal xs.length ++ (xs.map Frame.encode).flatten) ++ rest
          = writeDecimal xs.length ++ ((xs.map Frame.encode).flatten ++ rest) := by simp
      rw [hsh, getDec_writeDecimal]
      dsimp only
      have hcfs : ∀ x ∈ xs, Frame.crlfFree x = true := by
        intro x hxmem
        rw [Frame.crlfFree_array] at hcf
        simp [List.all_eq_true] at hcf
        exact hcf x hxmem
      rw [parseCnt_encode_list xs ihs hcfs fuel rest (by simp at hb ⊢; omega)]
      dsimp only
      rw [parseCnt_fuel fuel (fuel + 1) n rest (by simp at hb; omega) (by simp at hb; omega)]
      cases parseCnt (fuel + 1) n rest with
      | error e => rfl
      | ok p => rfl

/-! ### Prefix behaviour of check -/

theorem peekByte_some {l : List Nat} {c : Nat} (h : peekByte l = .ok c) :
    ∃ t, l = c :: t := by
  cases l with
  | nil => exact absurd h (by simp [peekByte])
  | cons d t =>
    refine ⟨t, ?_⟩
    have : d = c := by
      have hd : peekByte (d :: t) = .ok d := rfl
      rw [hd] at h
      exact (Except.ok.injEq _ _ ▸ h)
    rw [this]

/-- Main prefix lemma for `Frame::check`: when checking succeeds, the consumed
segment is independent of what follows it, and checking any strict prefix of
the consumed segment reports `Incomplete` (never success, never a protocol
error). -/
theorem checkCnt_take : ∀ fuel n (l r : List Nat), checkCnt fuel n l = .ok r →
    ∃ c, l = c ++ r ∧
      (∀ s : List Nat, checkCnt fuel n (c ++ s) = .ok s) ∧
      (∀ i, i < c.length → checkCnt fuel n (c.take i) = .error .incomplete) := by
  intro fuel
  induction fuel with
  | zero =>
    intro n l r h
    cases n with
    | zero =>
      rw [checkCnt] at h
      simp at h
      refine ⟨[], by simp [h], fun s => by rw [checkCnt]; simp, fun i hi => by simp at hi⟩
    | succ n => exact absurd h (by rw [checkCnt]; simp)
  | succ fuel ih =>
    intro n l r h
    cases n with
    | zero =>
      rw [checkCnt] at h
      simp at h
      refine ⟨[], by simp [h], fun s => by rw [checkCnt]; simp, fun i hi => by simp at hi⟩
    | succ n =>
      cases l with
      | nil => exact absurd h (by rw [checkCnt]; simp)
      | cons b rest =>
        rw [checkCnt] at h
        split at h
        · -- '+'/'-'
          rename_i h43
          split at h
          · rename_i r1 hsl
            obtain ⟨heq, hnc⟩ := splitLine_some hsl
            obtain ⟨line, hline⟩ : ∃ line, splitLine rest = some (line, r1) := ⟨_, hsl⟩
            obtain ⟨c1, hc1, hsucc1, hpre1⟩ := ih n r1 r h
            obtain ⟨heq2, hnc2⟩ := splitLine_some hline
            refine ⟨b :: (line ++ 13 :: 10 :: c1), ?_, ?_, ?_⟩
            · rw [heq2, hc1]
              simp
            · intro s
              rw [List.cons_append, checkCnt, if_pos h43]
              have hsh : (line ++ 13 :: 10 :: c1) ++ s = line ++ 13 :: 10 :: (c1 ++ s) := by simp
              rw [hsh, splitLine_append (c1 ++ s) hnc2]
              exact hsucc1 s
            · intro i hi
              cases i with
              | zero => rw [List.take_zero, checkCnt]
              | succ j =>
                rw [List.take_succ_cons, checkCnt, if_pos h43]
                rcases Nat.lt_or_ge j (line.length + 2) with hj | hj
                · rw [splitLine_take_incomplete c1 hnc2 hj]
                · obtain ⟨j2, hj2⟩ : ∃ j2, j = line.length + 2 + j2 := ⟨j - (line.length + 2), by omega⟩
                  subst hj2
                  rw [splitLine_take_more c1 hnc2 j2]
                  have hj2lt : j2 < c1.length := by simp at hi; omega
                  exact hpre1 j2 hj2lt
          · exact absurd h (by simp)
        · rename_i h43
          split at h
          · -- ':'
            rename_i h58
            split at h
            · rename_i p v r1 hgd
              obtain ⟨line, heq, hnc, hat, hne⟩ := getDec_some hgd
              obtain ⟨c1, hc1, hsucc1, hpre1⟩ := ih n r1 r h
              refine ⟨b :: (line ++ 13 :: 10 :: c1), ?_, ?_, ?_⟩
              · rw [heq, hc1]
                simp
              · intro s
                rw [List.cons_append, checkCnt, if_neg h43, if_pos h58]
                have hsh : (line ++ 13 :: 10 :: c1) ++ s = line ++ 13 :: 10 :: (c1 ++ s) := by simp
                rw [hsh, getDec_append (c1 ++ s) hnc hat]
                exact hsucc1 s
              · intro i hi
                cases i with
                | zero => rw [List.take_zero, checkCnt]
                | succ j =>
                  rw [List.take_succ_cons, checkCnt, if_neg h43, if_pos h58]
                  rcases Nat.lt_or_ge j (line.length + 2) with hj | hj
                  · rw [getDec_take_incomplete c1 hnc hj]
                  · obtain ⟨j2, hj2⟩ : ∃ j2, j = line.length + 2 + j2 :=
                      ⟨j - (line.length + 2), by omega⟩
                    subst hj2
                    rw [getDec_take_more c1 hnc hat j2]
                    dsimp only
                    have hj2lt : j2 < c1.length := by simp at hi; omega
                    exact hpre1 j2 hj2lt
            · exact absurd h (by simp)
          · rename_i h58
            split at h
            · -- '$'
              rename_i h36
              split at h
              · exact absurd h (by simp)
              · rename_i c0 hpk
                obtain ⟨t, ht⟩ := peekByte_some hpk
                split at h
                · -- bulk null marker: skip 4 bytes
                  rename_i hc45
                  split at h
                  · rename_i r1 hsk
                    obtain ⟨hle, hdr⟩ := skipBytes_ok hsk
                    obtain ⟨c1, hc1, hsucc1, hpre1⟩ := ih n r1 r h
                    have htk : rest.take 4 = c0 :: t.take 3 := by
                      rw [ht]
                      rfl
                    refine ⟨b :: (rest.take 4 ++ c1), ?_, ?_, ?_⟩
                    · rw [List.cons_append, List.append_assoc, ← hc1, hdr]
                      rw [List.take_append_drop]
                    · intro s
                      rw [List.cons_append, checkCnt, if_neg h43, if_neg h58, if_pos h36]
                      have hpk2 : peekByte ((rest.take 4 ++ c1) ++ s) = .ok c0 := by
                        rw [htk]
                        rfl
                      rw [hpk2]
                      dsimp only
                      rw [if_pos hc45]
                      rw [List.append_assoc, skipBytes_append (c1 ++ s) (by simp; omega)]
                      exact hsucc1 s
                    · intro i hi
                      cases i with
                      | zero => rw [List.take_zero, checkCnt]
                      | succ j =>
                        rw [List.take_succ_cons, checkCnt, if_neg h43, if_neg h58, if_pos h36]
                        cases j with
                        | zero =>
                          rw [List.take_zero]
                          rfl
                        | succ j1 =>
                          have hpk2 : peekByte ((rest.take 4 ++ c1).take (j1 + 1)) = .ok c0 := by
                            rw [htk, List.cons_append, List.take_succ_cons]
                            rfl
                          rw [hpk2]
                          dsimp only
                          rw [if_pos hc45]
                          rcases Nat.lt_or_ge (j1 + 1) 4 with hj | hj
                          · rw [skipBytes_take_incomplete _ hj]
                          · obtain ⟨j2, hj2⟩ : ∃ j2, j1 + 1 = 4 + j2 := ⟨j1 + 1 - 4, by omega⟩
                            rw [hj2, skipBytes_take_more c1 (by simp; omega) j2]
                            have hj2lt : j2 < c1.length := by
                              simp at hi
                              omega
                            exact hpre1 j2 hj2lt
                  · exact absurd h (by simp)
                · -- bulk with payload: getDec then skip len + 2
                  rename_i hc45
                  split at h
                  · rename_i p len r1 hgd
                    split at h
                    · rename_i r2 hsk
                      obtain ⟨line, heq, hnc, hat, hne⟩ := getDec_some hgd
                      obtain ⟨hle, hdr⟩ := skipBytes_ok hsk
                      obtain ⟨c1, hc1, hsucc1, hpre1⟩ := ih n r2 r h
                      have hlen2 : (r1.take (len + 2)).length = len + 2 := by simp; omega
                      have hline0 : ∃ lt, line = c0 :: lt := by
                        cases line with
                        | nil => exact absurd rfl hne
                        | cons d lt =>
                          refine ⟨lt, ?_⟩
                          have : d = c0 := by
                            rw [heq] at ht
                            simpa using congrArg List.head? ht
                          rw [this]
                      obtain ⟨lt, hlt⟩ := hline0
                      refine ⟨b :: (line ++ 13 :: 10 :: (r1.take (len + 2) ++ c1)), ?_, ?_, ?_⟩
                      · rw [heq]
                        simp only [List.cons_append, List.append_assoc]
                        rw [← hc1, hdr, List.take_append_drop]
                      · intro s
                        rw [List.cons_append, checkCnt, if_neg h43, if_neg h58, if_pos h36]
                        have hsh : (line ++ 13 :: 10 :: (r1.take (len + 2) ++ c1)) ++ s
                            = line ++ 13 :: 10 :: (r1.take (len + 2) ++ (c1 ++ s)) := by simp
                        rw [hsh]
                        have hpk2 : peekByte (line ++ 13 :: 10 :: (r1.take (len + 2) ++ (c1 ++ s)))
                            = .ok c0 := by
                          rw [hlt]
                          rfl
                        rw [hpk2]
                        dsimp only
                        rw [if_neg hc45]
                        rw [getDec_append _ hnc hat]
                        dsimp only
                        rw [skipBytes_append (c1 ++ s) hlen2]
                        exact hsucc1 s
                      · intro i hi
                        cases i with
                        | zero => rw [List.take_zero, checkCnt]
                        | succ j =>
                          rw [List.take_succ_cons, checkCnt, if_neg h43, if_neg h58, if_pos h36]
                          cases j with
                          | zero =>
                            rw [List.take_zero]
                            rfl
                          | succ j1 =>
                            have hpk2 : peekByte
                                ((line ++ 13 :: 10 :: (r1.take (len + 2) ++ c1)).take (j1 + 1))
                                = .ok c0 := by
                              rw [hlt, List.cons_append, List.take_succ_cons]
                              rfl
                            rw [hpk2]
                            dsimp only
                            rw [if_neg hc45]
                            rcases Nat.lt_or_ge (j1 + 1) (line.length + 2) with hj | hj
                            · rw [getDec_take_incomplete _ hnc hj]
                            · obtain ⟨j2, hj2⟩ : ∃ j2, j1 + 1 = line.length + 2 + j2 :=
                                ⟨j1 + 1 - (line.length + 2), by omega⟩
                              rw [hj2, getDec_take_more _ hnc hat j2]
                              dsimp only
                              rcases Nat.lt_or_ge j2 (len + 2) with hj3 | hj3
                              · rw [skipBytes_take_incomplete _ hj3]
                              · obtain ⟨j3, hj3e⟩ : ∃ j3, j2 = (len + 2) + j3 :=
                                  ⟨j2 - (len + 2), by omega⟩
                                rw [hj3e, skipBytes_take_more c1 hlen2 j3]
                                have hj3lt : j3 < c1.length := by
                                  simp at hi
                                  omega
                                exact hpre1 j3 hj3lt
                    · exact absurd h (by simp)
                  · exact absurd h (by simp)
            · rename_i h36
              split at h
              · -- '*'
                rename_i h42
                split at h
                · rename_i p m r1 hgd
                  split at h
                  · rename_i r2 hin
                    obtain ⟨line, heq, hnc, hat, hne⟩ := getDec_some hgd
                    obtain ⟨cch, hcch, hsuccch, hprech⟩ := ih m r1 r2 hin
                    obtain ⟨csib, hcsib, hsuccsib, hpresib⟩ := ih n r2 r h
                    refine ⟨b :: (line ++ 13 :: 10 :: (cch ++ csib)), ?_, ?_, ?_⟩
                    · rw [heq, hcch, hcsib]
                      simp
                    · intro s
                      rw [List.cons_append, checkCnt, if_neg h43, if_neg h58, if_neg h36,
                        if_pos h42]
                      have hsh : (line ++ 13 :: 10 :: (cch ++ csib)) ++ s
                          = line ++ 13 :: 10 :: (cch ++ (csib ++ s)) := by simp
                      rw [hsh, getDec_append _ hnc hat]
                      dsimp only
                      rw [hsuccch (csib ++ s)]
                      exact hsuccsib s
                    · intro i hi
                      cases i with
                      | zero => rw [List.take_zero, checkCnt]
                      | succ j =>
                        rw [List.take_succ_cons, checkCnt, if_neg h43, if_neg h58, if_neg h36,
                          if_pos h42]
                        rcases Nat.lt_or_ge j (line.length + 2) with hj | hj
                        · rw [getDec_take_incomplete _ hnc hj]
                        · obtain ⟨j2, hj2⟩ : ∃ j2, j = line.length + 2 + j2 :=
                            ⟨j - (line.length + 2), by omega⟩
                          subst hj2
                          rw [getDec_take_more _ hnc hat j2]
                          dsimp only
                          rcases Nat.lt_or_ge j2 cch.length with hj3 | hj3
                          · have htk : (cch ++ csib).take j2 = cch.take j2 := by
                              rw [List.take_append_eq_append_take]
                              have hz : j2 - cch.length = 0 := by omega
                              rw [hz]
                              simp
                            rw [htk, hprech j2 hj3]
                          · obtain ⟨j3, hj3e⟩ : ∃ j3, j2 = cch.length + j3 :=
                              ⟨j2 - cch.length, by omega⟩
                            subst hj3e
                            have htk : (cch ++ csib).take (cch.length + j3)
                                = cch ++ csib.take j3 := by
                              rw [List.take_append_eq_append_take]
                              have hz : cch.length + j3 - cch.length = j3 := by omega
                              rw [hz, List.take_of_length_le (by omega)]
                            rw [htk, hsuccch (csib.take j3)]
                            have hj3lt : j3 < csib.length := by simp at hi; omega
                            exact hpresib j3 hj3lt
                  · exact absurd h (by simp)
                · exact absurd h (by simp)
              · exact absurd h (by simp)

/-! ### Round-trip corollaries -/

theorem check_encode {f : Frame} (hcf : Frame.crlfFree f = true) :
    Frame.check (Frame.encode f) = .ok [] := by
  unfold Frame.check
  have h := checkCnt_encode f hcf ((Frame.encode f).length + 1) 0 [] (by simp)
  rw [List.append_nil] at h
  rw [h, checkCnt]

theorem parse_encode {f : Frame} (hcf : Frame.crlfFree f = true) :
    Frame.parse (Frame.encode f) = .ok (f, []) := by
  unfold Frame.parse
  have h := parseCnt_encode f hcf ((Frame.encode f).length + 1) 0 [] (by simp)
  rw [List.append_nil] at h
  rw [h]
  rw [show parseCnt ((Frame.encode f).length + 1) 0 [] = .ok (([] : List Frame), ([] : List Nat))
    from by rw [parseCnt]]
  rfl

/-- Whole round trip through `Connection::parse_frame` (check, then parse, then
advance past the checked span) recovers an encoded frame exactly. -/
theorem parseFrame_encode {f : Frame} (hcf : Frame.crlfFree f = true) :
    Connection.parseFrame (Frame.encode f) = .ok (some (f, (Frame.encode f).length)) := by
  unfold Connection.parseFrame
  rw [check_encode hcf, parse_encode hcf]
  simp

/-- A byte sequence holding exactly one complete well-formed frame: `check`
succeeds and consumes the entire sequence. -/
def Frame.WellFormed (bs : List Nat) : Prop := Frame.check bs = .ok []

theorem check_take_incomplete {bs : List Nat} (hwf : Frame.WellFormed bs)
    {i : Nat} (hi : i < bs.length) : Frame.check (bs.take i) = .error .incomplete := by
  unfold Frame.WellFormed Frame.check at *
  obtain ⟨c, hc, -, hpre⟩ := checkCnt_take (bs.length + 1) 1 bs [] hwf
  rw [List.append_nil] at hc
  rw [← hc] at hpre
  have htl : (bs.take i).length = i := by simp; omega
  rw [checkCnt_fuel ((bs.take i).length + 1) (bs.length + 1) 1 (bs.take i) (by omega)
    (by rw [htl]; omega)]
  exact hpre i hi

/-- Claim C4, counterexample: the claim quantifies over every constructible
frame, but a `Simple` frame whose text contains an embedded CRLF does not
round-trip: `Simple("a\r\nb")` encodes successfully to `+a\r\nb\r\n`, yet
check-then-parse decodes only `Simple("a")` (consuming four bytes), which
differs from the original frame. -/
theorem claim4_counterexample :
    Frame.encode (.simple [97, 13, 10, 98]) = [43, 97, 13, 10, 98, 13, 10] ∧
    Frame.encOk (.simple [97, 13, 10, 98]) = true ∧
    Connection.parseFrame [43, 97, 13, 10, 98, 13, 10] = .ok (some (.simple [97], 4)) ∧
    Frame.simple [97] ≠ Frame.simple [97, 13, 10, 98] := by
  refine ⟨by simp [Frame.encode], by simp [Frame.encOk], rfl, by simp⟩

/-- Claim C4 (amended): for every frame, including arbitrarily nested arrays,
whose simple/error payloads contain no CRLF pair and whose encoding succeeds
(every decimal field fits `write_decimal`'s 12-byte buffer), encoding per the
wire grammar and then decoding the produced bytes (check followed by parse, as
`Connection::parse_frame` does) succeeds and returns a frame equal to the
original, consuming exactly the encoded bytes. -/
theorem claim4_roundtrip (f : Frame) (hcf : Frame.crlfFree f = true)
    (henc : Frame.encOk f = true) :
    Connection.parseFrame (Frame.encode f) = .ok (some (f, (Frame.encode f).length)) :=
  parseFrame_encode hcf

/-- Claim C4 witness: the amended round trip on a concrete nested array frame. -/
theorem claim4_roundtrip_witness :
    Frame.crlfFree (.array [.simple [104, 105], .integer 42, .null, .bulk [120]]) = true ∧
    Frame.encOk (.array [.simple [104, 105], .integer 42, .null, .bulk [120]]) = true ∧
    Connection.parseFrame
        (Frame.encode (.array [.simple [104, 105], .integer 42, .null, .bulk [120]]))
      = .ok (some ((.array [.simple [104, 105], .integer 42, .null, .bulk [120]]),
        (Frame.encode (.array [.simple [104, 105], .integer 42, .null, .bulk [120]])).length)) :=
  ⟨by simp [Frame.crlfFree, noCRLF], by simp [Frame.encOk, writeDecimalOk, decDigits],
    claim4_roundtrip _ (by simp [Frame.crlfFree, noCRLF])
      (by simp [Frame.encOk, writeDecimalOk, decDigits])⟩

/-- Claim C5: for every byte sequence forming one complete well-formed frame
(`Frame::check` succeeds consuming all of it) and every split point strictly
inside it, the decode attempt of `Connection::parse_frame` on the strict prefix
reports the `Incomplete` signal — surfaced as `Ok(None)`, not a protocol
error — and no buffered bytes are discarded: once the remaining bytes arrive
the buffer again holds exactly the whole sequence, so decoding yields the very
same result (the same frame) as delivering it in one read. -/
theorem claim5_split_delivery (bs : List Nat) (hwf : Frame.WellFormed bs)
    (i : Nat) (hi : i < bs.length) :
    Frame.check (bs.take i) = .error .incomplete ∧
    Connection.parseFrame (bs.take i) = .ok none ∧
    bs.take i ++ bs.drop i = bs ∧
    Connection.parseFrame (bs.take i ++ bs.drop i) = Connection.parseFrame bs := by
  have hci := check_take_incomplete hwf hi
  refine ⟨hci, ?_, List.take_append_drop i bs, by rw [List.take_append_drop]⟩
  unfold Connection.parseFrame
  rw [hci]

/-- Claim C5 witness: splitting the encoding of `Simple("hi")` after two bytes. -/
theorem claim5_split_delivery_witness :
    Frame.WellFormed [43, 104, 105, 13, 10] ∧ 2 < ([43, 104, 105, 13, 10] : List Nat).length ∧
    Frame.check (([43, 104, 105, 13, 10] : List Nat).take 2) = .error .incomplete ∧
    Connection.parseFrame (([43, 104, 105, 13, 10] : List Nat).take 2) = .ok none ∧
    ([43, 104, 105, 13, 10] : List Nat).take 2 ++ ([43, 104, 105, 13, 10] : List Nat).drop 2
      = [43, 104, 105, 13, 10] ∧
    Connection.parseFrame (([43, 104, 105, 13, 10] : List Nat).take 2
        ++ ([43, 104, 105, 13, 10] : List Nat).drop 2)
      = Connection.parseFrame [43, 104, 105, 13, 10] := by
  have h := claim5_split_delivery [43, 104, 105, 13, 10] rfl 2 (by simp)
  exact ⟨rfl, by simp, h.1, h.2.1, h.2.2.1, h.2.2.2⟩

/-! ### Argument parser (parse.rs) -/

/-- Errors of the argument parser (parse.rs `ParseError`): the distinct
end-of-stream signal versus other protocol errors carrying a message. -/
inductive ParseError where
  | endOfStream
  | other (msg : String)
deriving Repr

/-- Rendering used when a `ParseError` crosses into `crate::Result` through
`?` (the `Display` impl in parse.rs). -/
def ParseError.message : ParseError → String
  | .endOfStream => "protocol error,unexpected end of stream"
  | .other m => m

/-- `Parse::next`: pop the next frame of the array cursor. -/
def Parse.next : List Frame → Except ParseError (Frame × List Frame)
  | [] => .error .endOfStream
  | f :: rest => .ok (f, rest)

/-- `Parse::next_string`: accept a Simple or Bulk frame as a string. (UTF-8
validation of bulk payloads is dropped; payloads are already byte lists.) -/
def Parse.nextString (parts : List Frame) : Except ParseError (Str × List Frame) :=
  match Parse.next parts with
  | .error e => .error e
  | .ok (f, rest) =>
    match f with
    | .simple s => .ok (s, rest)
    | .bulk d => .ok (d, rest)
    | _ => .error (.other "protocol error; expected simple frame or bulk frame")

/-- `Parse::next_bytes`: accept a Simple or Bulk frame as raw bytes. -/
def Parse.nextBytes (parts : List Frame) : Except ParseError (Str × List Frame) :=
  match Parse.next parts with
  | .error e => .error e
  | .ok (f, rest) =>
    match f with
    | .simple s => .ok (s, rest)
    | .bulk d => .ok (d, rest)
    | _ => .error (.other "protocol error; expected simple frame or bulk frame")

/-- `Parse::next_int`: accept Simple/Bulk ASCII decimals or an Integer frame. -/
def Parse.nextInt (parts : List Frame) : Except ParseError (Nat × List Frame) :=
  match Parse.next parts with
  | .error e => .error e
  | .ok (f, rest) =>
    match f with
    | .simple s =>
      match atoi s with
      | some v => .ok (v, rest)
      | none => .error (.other "protocol error; expected number")
    | .integer v => .ok (v, rest)
    | .bulk d =>
      match atoi d with
      | some v => .ok (v, rest)
      | none => .error (.other "protocol error; expected number")
    | _ => .error (.other "protocol error; expected int frame")

/-- `Parse::finish`: protocol error if elements remain. -/
def Parse.finish (parts : List Frame) : Except ParseError Unit :=
  match parts with
  | [] => .ok ()
  | _ => .error (.other "protocol error; expected end of array")

/-! ### Commands (cmd/) -/

/-- `Duration::from_secs`, in the millisecond model of durations. -/
def Duration.fromSecs (n : Nat) : Nat := 1000 * n

/-- `Duration::from_millis`, in the millisecond model of durations. -/
def Duration.fromMillis (n : Nat) : Nat := n

/-- Bytes of the ASCII string EX. -/
def strEX : Str := [69, 88]

/-- Bytes of the ASCII string PX. -/
def strPX : Str := [80, 88]

/-- Bytes of the ASCII string get. -/
def strGet : Str := [103, 101, 116]

/-- Bytes of the ASCII string set. -/
def strSet : Str := [115, 101, 116]

/-- Bytes of the ASCII string publish. -/
def strPublish : Str := [112, 117, 98, 108, 105, 115, 104]

/-- Bytes of the ASCII string subscribe. -/
def strSubscribe : Str := [115, 117, 98, 115, 99, 114, 105, 98, 101]

/-- Bytes of the ASCII string unsubscribe. -/
def strUnsubscribe : Str := [117, 110, 115, 117, 98, 115, 99, 114, 105, 98, 101]

/-- Bytes of the ASCII string message. -/
def strMessage : Str := [109, 101, 115, 115, 97, 103, 101]

/-- Bytes of the ASCII string pub (the `get_name` tag of Publish). -/
def strPub : Str := [112, 117, 98]

/-- Bytes of the prefix of the unknown-command error message,
namely "ERR unknown command '"; the closing quote byte 39 follows the name. -/
def strERRUnknown : Str :=
  [69, 82, 82, 32, 117, 110, 107, 110, 111, 119, 110, 32, 99, 111, 109, 109, 97, 110, 100,
    32, 39]

/-- ASCII lowercasing, modelling `str::to_lowercase` on the ASCII command
names the dispatcher compares against (non-ASCII code points never match any
known name either way). -/
def toLowerAscii (s : Str) : Str :=
  s.map (fun b => if 65 ≤ b ∧ b ≤ 90 then b + 32 else b)

/-- The `Get` command. -/
structure Get where
  key : Str
deriving Repr

/-- The `Set` command (set.rs): key, value and optional expiration duration. -/
structure Set where
  key : Str
  value : Str
  expire : Option Nat
deriving Repr

/-- The `Publish` command. -/
structure Publish where
  channel : Str
  message : Str
deriving Repr

/-- The `Subscribe` command. -/
structure Subscribe where
  channels : List Str
deriving Repr

/-- The `Unsubscribe` command. -/
structure Unsubscribe where
  channels : List Str
deriving Repr

/-- The `Unknown` command (carries the unrecognised, lowercased name). -/
structure Unknown where
  commandName : Str
deriving Repr

/-- The command sum type (cmd/mod.rs `Command`). -/
inductive Command where
  | get (c : Get)
  | publish (c : Publish)
  | set (c : Set)
  | subscribe (c : Subscribe)
  | unsubscribe (c : Unsubscribe)
  | unknown (c : Unknown)
deriving Repr

/-- `Set::parse_frames`: key, value, then optionally exactly `EX seconds` or
`PX milliseconds`; any other trailing string token is the unsupported-option
protocol error; end of stream means no expiry; other parse errors propagate. -/
def Set.parseFrames (parts : List Frame) : Except String (Set × List Frame) :=
  match Parse.nextString parts with
  | .error e => .error e.message
  | .ok (key, p1) =>
    match Parse.nextBytes p1 with
    | .error e => .error e.message
    | .ok (value, p2) =>
      match Parse.nextString p2 with
      | .ok (s, p3) =>
        if s = strEX then
          match Parse.nextInt p3 with
          | .ok (secs, p4) => .ok (⟨key, value, some (Duration.fromSecs secs)⟩, p4)
          | .error e => .error e.message
        else if s = strPX then
          match Parse.nextInt p3 with
          | .ok (ms, p4) => .ok (⟨key, value, some (Duration.fromMillis ms)⟩, p4)
          | .error e => .error e.message
        else .error "currently set only supports the expiration option"
      | .error .endOfStream => .ok (⟨key, value, none⟩, p2)
      | .error (.other m) => .error m

/-- `Get::parse_frames`. -/
def Get.parseFrames (parts : List Frame) : Except String (Get × List Frame) :=
  match Parse.nextString parts with
  | .error e => .error e.message
  | .ok (key, p1) => .ok (⟨key⟩, p1)

/-- `Publish::parse_frames`. -/
def Publish.parseFrames (parts : List Frame) : Except String (Publish × List Frame) :=
  match Parse.nextString parts with
  | .error e => .error e.message
  | .ok (channel, p1) =>
    match Parse.nextBytes p1 with
    | .error e => .error e.message
    | .ok (message, p2) => .ok (⟨channel, message⟩, p2)

/-- The `loop { match parse.next_string() ... }` of Subscribe/Unsubscribe
argument parsing: collect strings until `EndOfStream` (which, on the cursor
model, means the whole remainder is consumed), failing on a non-string frame. -/
def stringLoop : List Frame → Except String (List Str)
  | [] => .ok []
  | f :: rest =>
    match f with
    | .simple s => (stringLoop rest).map (fun ss => s :: ss)
    | .bulk d => (stringLoop rest).map (fun ss => d :: ss)
    | _ => .error "protocol error; expected simple frame or bulk frame"

/-- `Subscribe::parse_frames`: one mandatory channel, then the rest. -/
def Subscribe.parseFrames (parts : List Frame) : Except String (Subscribe × List Frame) :=
  match Parse.nextString parts with
  | .error e => .error e.message
  | .ok (c1, p1) =>
    match stringLoop p1 with
    | .ok cs => .ok (⟨c1 :: cs⟩, [])
    | .error m => .error m

/-- `Unsubscribe::parse_frames`: an arbitrary (possibly empty) channel list. -/
def Unsubscribe.parseFrames (parts : List Frame) : Except String (Unsubscribe × List Frame) :=
  match stringLoop parts with
  | .ok cs => .ok (⟨cs⟩, [])
  | .error m => .error m

/-- `Set::into_frame`: an array of the bulk strings set, key, value. The
`expire` field is not written. -/
def Set.intoFrame (c : Set) : Frame :=
  .array [.bulk strSet, .bulk c.key, .bulk c.value]

/-- `Unsubscribe::into_frame`. -/
def Unsubscribe.intoFrame (c : Unsubscribe) : Frame :=
  .array (.bulk strUnsubscribe :: c.channels.map (fun ch => .bulk ch))

/-- `Subscribe::into_frame`. -/
def Subscribe.intoFrame (c : Subscribe) : Frame :=
  .array (.bulk strSubscribe :: c.channels.map (fun ch => .bulk ch))

/-- `Command::get_name`. -/
def Command.getName : Command → Str
  | .get _ => strGet
  | .publish _ => strPub
  | .set _ => strSet
  | .subscribe _ => strSubscribe
  | .unsubscribe _ => strUnsubscribe
  | .unknown c => c.commandName

/-- `Command::from_frame` (cmd/mod.rs): require an array, read the
case-insensitive command name, dispatch to the variant parser, then require
the cursor be fully consumed — except for unknown commands, which return
before the `finish` check. -/
def Command.fromFrame (f : Frame) : Except String Command :=
  match f with
  | .array parts =>
    match Parse.nextString parts with
    | .error e => .error e.message
    | .ok (name0, p1) =>
      let name := toLowerAscii name0
      if name = strGet then
        match Get.parseFrames p1 with
        | .ok (c, p2) =>
          match Parse.finish p2 with
          | .ok _ => .ok (.get c)
          | .error e => .error e.message
        | .error m => .error m
      else if name = strPublish then
        match Publish.parseFrames p1 with
        | .ok (c, p2) =>
          match Parse.finish p2 with
          | .ok _ => .ok (.publish c)
          | .error e => .error e.message
        | .error m => .error m
      else if name = strSet then
        match Set.parseFrames p1 with
        | .ok (c, p2) =>
          match Parse.finish p2 with
          | .ok _ => .ok (.set c)
          | .error e => .error e.message
        | .error m => .error m
      else if name = strSubscribe then
        match Subscribe.parseFrames p1 with
        | .ok (c, p2) =>
          match Parse.finish p2 with
          | .ok _ => .ok (.subscribe c)
          | .error e => .error e.message
        | .error m => .error m
      else if name = strUnsubscribe then
        match Unsubscribe.parseFrames p1 with
        | .ok (c, p2) =>
          match Parse.finish p2 with
          | .ok _ => .ok (.unsubscribe c)
          | .error e => .error e.message
        | .error m => .error m
      else .ok (.unknown ⟨name⟩)
  | _ => .error "protocol error; expected array"

/-! ### The Subscribe apply loop (cmd/subscribe.rs) -/

/-- `make_subscribe_frame`. -/
def makeSubscribeFrame (channelName : Str) (numSubs : Nat) : Frame :=
  .array [.bulk strSubscribe, .bulk channelName, .integer numSubs]

/-- `make_unsubscribe_frame`. -/
def makeUnsubscribeFrame (channelName : Str) (numSubs : Nat) : Frame :=
  .array [.bulk strUnsubscribe, .bulk channelName, .integer numSubs]

/-- `make_message_frame`. -/
def makeMessageFrame (channelName : Str) (msg : Str) : Frame :=
  .array [.bulk strMessage, .bulk channelName, .bulk msg]

/-- The error type of `tokio_stream::wrappers::BroadcastStream` items: its only
variant reports that the receiver lagged behind (missed `n` messages that were
overwritten in the bounded channel buffer). -/
inductive BroadcastStreamRecvError where
  | lagged (n : Nat)
deriving Repr

/-- Outcome of one message-arm iteration of `Subscribe::apply`'s select loop. -/
inductive MessageStepResult where
  | wrote (response : Frame)
  | panicked
deriving Repr

/-- The message arm of `Subscribe::apply` (subscribe.rs lines 75-83): a stream
item `Ok(msg)` is answered with a message frame on the connection; an `Err`
item runs the `unreachable!()` branch, which aborts (panics) the task. -/
def onChannelMessage (channelName : Str) (msg : Except BroadcastStreamRecvError Str) :
    MessageStepResult :=
  match msg with
  | .ok m => .wrote (makeMessageFrame channelName m)
  | .error _ => .panicked

/-- The `Error` response frame written by `Unknown::apply`. -/
def unknownResponse (name : Str) : Frame :=
  .error (strERRUnknown ++ name ++ [39])

/-- The per-channel body of `handle_command`'s Unsubscribe arm: remove each
named channel from the stream map (whether or not it is present) and record an
unsubscribe response carrying the remaining subscription count. -/
def unsubscribeLoop (chans : List Str) (subscriptions : List Str) : List Str × List Frame :=
  match chans with
  | [] => (subscriptions, [])
  | ch :: rest =>
    let subs1 := subscriptions.erase ch
    let (subsF, resps) := unsubscribeLoop rest subs1
    (subsF, makeUnsubscribeFrame ch subs1.length :: resps)

/-- `handle_command` (subscribe.rs): decode the frame as a command; a nested
Subscribe extends the pending-join list; a nested Unsubscribe removes the named
channels (all joined channels when the list is empty), writing one response per
channel; any other command draws the unknown-command response. The result is
the new pending-join list, the new stream-map key set (in insertion order) and
the frames written to the connection. -/
def handleCommand (frame : Frame) (subscribeTo : List Str) (subscriptions : List Str) :
    Except String (List Str × List Str × List Frame) :=
  match Command.fromFrame frame with
  | .error e => .error e
  | .ok (.subscribe sub) => .ok (subscribeTo ++ sub.channels, subscriptions, [])
  | .ok (.unsubscribe unsub) =>
    let chans := if unsub.channels.isEmpty then subscriptions else unsub.channels
    let (subs2, resps) := unsubscribeLoop chans subscriptions
    .ok (subscribeTo, subs2, resps)
  | .ok cmd => .ok (subscribeTo, subscriptions, [unknownResponse (Command.getName cmd)])

/-- Claim C1: inside the Subscribe apply loop, a lagged ("fell behind")
broadcast item does not get swallowed: the code matches every `Err` stream
item — and `Lagged` is the only error a `BroadcastStream` produces — with
`unreachable!()`, so the task panics instead of continuing without a
response. This contradicts the specified behaviour, hence the claim is a
code bug witness: the evaluation shows the panic outcome. -/
theorem claim1_lagged_panics (ch : Str) (n : Nat) :
    onChannelMessage ch (.error (.lagged n)) = .panicked := rfl

/-- Claim C3, counterexample: with joined channels `{"a"}`, handling a nested
`Unsubscribe(["b"])` — a channel that is not joined — succeeds and writes an
unsubscribe response for "b" with remaining count 1, rather than returning the
protocol error the claim requires. -/
theorem claim3_counterexample :
    handleCommand (.array [.bulk strUnsubscribe, .bulk [98]]) [] [[97]]
      = .ok ([], [[97]], [makeUnsubscribeFrame [98] 1]) := rfl

/-- Claim C3 (amended): inside an active Subscribe loop, a nested Unsubscribe
naming a channel that is not currently joined is not an error: the removal is
a no-op, and the loop still writes an unsubscribe response for that channel
carrying the unchanged number of remaining subscriptions. -/
theorem claim3_amended (st subs : List Str) (ch : Str) (hch : ch ∉ subs) :
    handleCommand (.array [.bulk strUnsubscribe, .bulk ch]) st subs
      = .ok (st, subs, [makeUnsubscribeFrame ch subs.length]) := by
  have herase : subs.erase ch = subs := List.erase_of_not_mem hch
  unfold handleCommand
  rw [show Command.fromFrame (.array [.bulk strUnsubscribe, .bulk ch])
      = .ok (.unsubscribe ⟨[ch]⟩) from rfl]
  dsimp only
  rw [show (Unsubscribe.channels ⟨[ch]⟩).isEmpty = false from rfl]
  simp only [Bool.false_eq_true, if_false]
  unfold unsubscribeLoop unsubscribeLoop
  rw [herase]

/-- Claim C3 witness: applying the amended statement with joined set `{"a"}`
and the not-joined channel "b". -/
theorem claim3_amended_witness :
    ([98] : Str) ∉ [[97]] ∧
    handleCommand (.array [.bulk strUnsubscribe, .bulk [98]]) [] [[97]]
      = .ok ([], [[97]], [makeUnsubscribeFrame [98] 1]) :=
  ⟨by simp, claim3_amended [] [[97]] [98] (by simp)⟩

/-- Claim C7: `Set::parse_frames` takes key and value, then: no further token
(end of stream) parses successfully with no expiry; an `EX` token is followed
by an integer read as seconds; a `PX` token by an integer read as
milliseconds; and any other string token fails with the unsupported-option
protocol error. -/
theorem claim7_set_parse (k v : Str) :
    (Set.parseFrames [.bulk k, .bulk v] = .ok (⟨k, v, none⟩, [])) ∧
    (∀ (n : Nat) (rest : List Frame),
      Set.parseFrames (.bulk k :: .bulk v :: .bulk strEX :: .integer n :: rest)
        = .ok (⟨k, v, some (Duration.fromSecs n)⟩, rest)) ∧
    (∀ (n : Nat) (rest : List Frame),
      Set.parseFrames (.bulk k :: .bulk v :: .bulk strPX :: .integer n :: rest)
        = .ok (⟨k, v, some (Duration.fromMillis n)⟩, rest)) ∧
    (∀ (s : Str) (rest : List Frame), s ≠ strEX → s ≠ strPX →
      Set.parseFrames (.bulk k :: .bulk v :: .bulk s :: rest)
        = .error "currently set only supports the expiration option") := by
  refine ⟨rfl, fun n rest => rfl, fun n rest => rfl, fun s rest hex hpx => ?_⟩
  unfold Set.parseFrames
  rw [show Parse.nextString (.bulk k :: .bulk v :: .bulk s :: rest)
      = .ok (k, .bulk v :: .bulk s :: rest) from rfl]
  dsimp only
  rw [show Parse.nextBytes (.bulk v :: .bulk s :: rest) = .ok (v, .bulk s :: rest) from rfl]
  dsimp only
  rw [show Parse.nextString (.bulk s :: rest) = .ok (s, rest) from rfl]
  dsimp only
  rw [if_neg hex, if_neg hpx]

/-- Claim C7 witness: the four behaviours at concrete arguments — no trailing
token, `EX 7`, `PX 9`, and the unsupported token XX. -/
theorem claim7_set_parse_witness :
    (Set.parseFrames [.bulk [107], .bulk [118]] = .ok (⟨[107], [118], none⟩, [])) ∧
    (Set.parseFrames [.bulk [107], .bulk [118], .bulk strEX, .integer 7]
      = .ok (⟨[107], [118], some 7000⟩, [])) ∧
    (Set.parseFrames [.bulk [107], .bulk [118], .bulk strPX, .integer 9]
      = .ok (⟨[107], [118], some 9⟩, [])) ∧
    (Set.parseFrames [.bulk [107], .bulk [118], .bulk [88, 88]]
      = .error "currently set only supports the expiration option") := by
  have h := claim7_set_parse [107] [118]
  exact ⟨h.1, h.2.1 7 [], h.2.2.1 9 [], h.2.2.2 [88, 88] [] (by simp [strEX]) (by simp [strPX])⟩

/-- Claim C10: `Set::into_frame` writes only the command name, key and value,
so re-parsing the produced frame through `Command::from_frame` yields a Set
with the same key and value but `expire = None` — the command-level round trip
loses every expiration. -/
theorem claim10_set_roundtrip_drops_expire (k v : Str) (d : Nat) :
    Command.fromFrame (Set.intoFrame ⟨k, v, some d⟩) = .ok (.set ⟨k, v, none⟩) := rfl

/-! ### The store (db.rs) -/

/-- An `Entry` of the store: allocation id, payload, optional deadline. -/
structure Entry where
  id : Nat
  data : Str
  expiresAt : Option Nat
deriving Repr, DecidableEq

/-- Model of `tokio::sync::Notify` as the number of notifications emitted to
the waiting sweeper. -/
structure Notify where
  pending : Nat
deriving Repr, DecidableEq

/-- `Notify::notify_one`: emit a notification, waking the sweeper. (Shown for
contrast; the repository never calls it.) -/
def Notify.notifyOne (n : Notify) : Notify := ⟨n.pending + 1⟩

/-- Calling `Notify::notified()` and dropping the returned future without
awaiting it — which is what `Db::set` and `Drop for Db` do — creates a
listener and emits nothing: no waiter is woken. -/
def Notify.notifiedDropped (n : Notify) : Notify := n

/-- The shared store state (db.rs `State` together with the `Notify`).
Association lists model the hash maps (`entries`; `pub_sub` maps a channel to
its live-receiver count) and a sorted association list models the ordered
`BTreeMap` index `expirations`. -/
structure State where
  entries : List (Str × Entry)
  pubSub : List (Str × Nat)
  expirations : List ((Nat × Nat) × Str)
  nextId : Nat
  shutdown : Bool
  backgroundTask : Notify
deriving Repr

/-- The state a fresh `Db::new` protects. -/
def initState : State := ⟨[], [], [], 0, false, ⟨0⟩⟩

/-- Association list lookup (`HashMap::get`). -/
def lookupA {α β : Type} [DecidableEq α] : List (α × β) → α → Option β
  | [], _ => none
  | (k, v) :: t, key => if k = key then some v else lookupA t key

/-- Association list insert-or-replace (`HashMap::insert`); the previous value
at the key, which `insert` returns, is `lookupA` before the call. -/
def insertA {α β : Type} [DecidableEq α] : List (α × β) → α → β → List (α × β)
  | [], key, v => [(key, v)]
  | (k, w) :: t, key, v => if k = key then (key, v) :: t else (k, w) :: insertA t key v

/-- Association list removal of the (unique) element with the key
(`HashMap::remove` / `BTreeMap::remove`). -/
def removeA {α β : Type} [DecidableEq α] : List (α × β) → α → List (α × β)
  | [], _ => []
  | (k, v) :: t, key => if k = key then t else (k, v) :: removeA t key

/-- Strict lexicographic order on the `(Instant, id)` keys of the expiration
index, mirroring the `BTreeMap` ordering on tuples. -/
def expLt (a b : Nat × Nat) : Prop := a.1 < b.1 ∨ (a.1 = b.1 ∧ a.2 < b.2)

instance : DecidableRel expLt := fun a b => by unfold expLt; infer_instance

/-- Sorted insert-or-replace into the expiration index (`BTreeMap::insert`). -/
def insertExp : List ((Nat × Nat) × Str) → Nat × Nat → Str → List ((Nat × Nat) × Str)
  | [], key, v => [(key, v)]
  | (k2, v2) :: t, key, v =>
    if expLt key k2 then (key, v) :: (k2, v2) :: t
    else if key = k2 then (key, v) :: t
    else (k2, v2) :: insertExp t key v

/-- `State::next_expiration`: the instant of the first (minimum) index key. -/
def State.nextExpiration (s : State) : Option Nat :=
  s.expirations.head?.map (fun r => r.1.1)

/-- Result of `Db::set`: the new state plus the `notify` flag the code
computed. Whether a wake was actually emitted is visible in
`state.backgroundTask`. -/
structure SetResult where
  state : State
  notify : Bool

/-- `Db::set` (db.rs lines 122-173): allocate the next id; for an expiring
write, compute the deadline, decide `notify` against the currently tracked
earliest deadline before inserting the new `(when, id)` index record; insert
or replace the entry, then drop the replaced entry's old index record; finally,
when `notify` is set, the code runs `self.shared.background_task.notified()` —
creating and dropping a `Notified` future, which emits no notification — where
waking the sweeper would require `notify_one`. -/
def Db.set (s : State) (now : Nat) (key : Str) (value : Str) (expire : Option Nat) :
    SetResult :=
  let id := s.nextId
  let s1 : State := { s with nextId := s.nextId + 1 }
  match expire with
  | none =>
    let prev := lookupA s1.entries key
    let s2 := { s1 with entries := insertA s1.entries key ⟨id, value, none⟩ }
    let s3 := match prev with
      | some pe =>
        match pe.expiresAt with
        | some w => { s2 with expirations := removeA s2.expirations (w, pe.id) }
        | none => s2
      | none => s2
    { state := s3, notify := false }
  | some dur =>
    let when := now + dur
    let notify := match s1.nextExpiration with
      | some expiration => decide (when < expiration)
      | none => true
    let s2 := { s1 with expirations := insertExp s1.expirations (when, id) key }
    let prev := lookupA s2.entries key
    let s3 := { s2 with entries := insertA s2.entries key ⟨id, value, some when⟩ }
    let s4 := match prev with
      | some pe =>
        match pe.expiresAt with
        | some w => { s3 with expirations := removeA s3.expirations (w, pe.id) }
        | none => s3
      | none => s3
    let s5 := if notify then
        { s4 with backgroundTask := s4.backgroundTask.notifiedDropped }
      else s4
    { state := s5, notify := notify }

/-- `Db::get`: return a copy of the entry's data; `expires_at` is never read. -/
def Db.get (s : State) (key : Str) : Option Str :=
  (lookupA s.entries key).map (fun e => e.data)

/-- `broadcast::Sender::send`: errors exactly when no receiver is live,
otherwise reports the number of receivers the value was delivered to. -/
def broadcastSend (receivers : Nat) : Except Unit Nat :=
  if receivers = 0 then .error () else .ok receivers

/-- `Db::publish`: send on the channel's sender if one exists, flattening the
no-receiver error to 0 with `unwrap_or(0)`; without a sender, 0. -/
def Db.publish (s : State) (key : Str) : Nat :=
  match lookupA s.pubSub key with
  | some receivers =>
    match broadcastSend receivers with
    | .ok n => n
    | .error _ => 0
  | none => 0

/-- `Db::subscribe`: join the channel's broadcast sender, creating it on first
use; the model keeps the live receiver count. -/
def Db.subscribe (s : State) (key : Str) : State :=
  match lookupA s.pubSub key with
  | some n => { s with pubSub := insertA s.pubSub key (n + 1) }
  | none => { s with pubSub := insertA s.pubSub key 1 }

/-- The while-let loop of `Shared::purge_expired_keys`: repeatedly look at the
minimum index record; stop (returning its instant) once it lies in the future,
otherwise remove the entry and the record. -/
def purgeLoop (now : Nat) : List ((Nat × Nat) × Str) → List (Str × Entry) →
    List ((Nat × Nat) × Str) × List (Str × Entry) × Option Nat
  | [], entries => ([], entries, none)
  | ((wh, id), key) :: rest, entries =>
    if now < wh then (((wh, id), key) :: rest, entries, some wh)
    else purgeLoop now rest (removeA entries key)

/-- `Shared::purge_expired_keys`: no-op when shut down, else one sweep. -/
def Shared.purgeExpiredKeys (s : State) (now : Nat) : State × Option Nat :=
  if s.shutdown then (s, none)
  else
    let r := purgeLoop now s.expirations s.entries
    ({ s with expirations := r.1, entries := r.2.1 }, r.2.2)

/-- `Drop for Db` on the last external handle: set the shutdown flag, then run
`background_task.notified()` — again a dropped future, not a wake. -/
def Db.dropLast (s : State) : State :=
  { s with shutdown := true, backgroundTask := s.backgroundTask.notifiedDropped }

/-- States reachable from a fresh store under the store's own operations. -/
inductive Reachable : State → Prop where
  | init : Reachable initState
  | set (s : State) (now : Nat) (key value : Str) (expire : Option Nat) :
      Reachable s → Reachable (Db.set s now key value expire).state
  | purge (s : State) (now : Nat) :
      Reachable s → Reachable (Shared.purgeExpiredKeys s now).1
  | subscribe (s : State) (key : Str) :
      Reachable s → Reachable (Db.subscribe s key)
  | drop (s : State) : Reachable s → Reachable (Db.dropLast s)

/-- Claim C2: the notify-condition of `Db::set` is computed as specified
(earlier than the tracked earliest deadline, or none tracked), but no wake is
ever emitted to the sweeper: the code calls `Notify::notified()` — which only
creates a wait future that is immediately dropped — instead of
`notify_one()`, so `backgroundTask` is unchanged by every call. On the empty
store, setting a key with a 10ms TTL computes `notify = true` yet leaves the
sweeper unwoken, contradicting the claim (and the code's own comment). -/
theorem claim2_set_never_wakes :
    (Db.set initState 0 [107] [118] (some 10)).notify = true ∧
    (Db.set initState 0 [107] [118] (some 10)).state.backgroundTask = initState.backgroundTask ∧
    (∀ (s : State) (now : Nat) (key value : Str) (expire : Option Nat),
      (Db.set s now key value expire).state.backgroundTask = s.backgroundTask) := by
  refine ⟨rfl, rfl, fun s now key value expire => ?_⟩
  unfold Db.set
  cases expire with
  | none =>
    dsimp only
    cases lookupA s.entries key with
    | none => rfl
    | some pe =>
      dsimp only
      cases pe.expiresAt with
      | none => rfl
      | some w => rfl
  | some dur =>
    dsimp only
    cases hne : State.nextExpiration { s with nextId := s.nextId + 1 } with
    | none =>
      simp only [hne]
      cases lookupA s.entries key with
      | none => rfl
      | some pe =>
        dsimp only
        cases pe.expiresAt with
        | none => rfl
        | some w => rfl
    | some expiration =>
      simp only [hne]
      cases lookupA s.entries key with
      | none =>
        dsimp only
        split <;> rfl
      | some pe =>
        dsimp only
        cases pe.expiresAt with
        | none => dsimp only; split <;> rfl
        | some w => dsimp only; split <;> rfl

/-- Claim C8: `Db::publish` returns the number of live receivers when the
channel has a sender with receivers; it returns 0 when the channel has no
sender, or when the sender's receiver count is 0 (every receiver dropped, the
`SendError` case of `broadcast::send`, absorbed by `unwrap_or(0)`); being a
total function into `Nat`, it returns an error in none of these cases. -/
theorem claim8_publish (s : State) (ch : Str) :
    (lookupA s.pubSub ch = none → Db.publish s ch = 0) ∧
    (lookupA s.pubSub ch = some 0 → Db.publish s ch = 0) ∧
    (∀ n, lookupA s.pubSub ch = some n → 0 < n → Db.publish s ch = n) := by
  refine ⟨fun h => ?_, fun h => ?_, fun n h hn => ?_⟩
  · unfold Db.publish
    rw [h]
  · unfold Db.publish
    rw [h]
    rfl
  · unfold Db.publish
    rw [h]
    dsimp only
    unfold broadcastSend
    rw [if_neg (by omega)]

/-- Claim C8 witness: a channel with three live receivers returns 3; a missing
channel and a channel whose receivers all dropped return 0. -/
theorem claim8_publish_witness :
    Db.publish ⟨[], [([120], 3)], [], 0, false, ⟨0⟩⟩ [120] = 3 ∧
    Db.publish initState [120] = 0 ∧
    Db.publish ⟨[], [([120], 0)], [], 0, false, ⟨0⟩⟩ [120] = 0 :=
  ⟨(claim8_publish ⟨[], [([120], 3)], [], 0, false, ⟨0⟩⟩ [120]).2.2 3 rfl (by omega),
    (claim8_publish initState [120]).1 rfl,
    (claim8_publish ⟨[], [([120], 0)], [], 0, false, ⟨0⟩⟩ [120]).2.1 rfl⟩

/-- Claim C9: `Db::get` never consults `expires_at`: for an entry whose
deadline `t` already lies in the past (`t < now`) but which the sweeper has
not yet purged (it is still in `entries`), `get` still returns the stored
value; expiration is enforced only by the sweeper. -/
theorem claim9_get_ignores_expiry (s : State) (k : Str) (e : Entry) (t now : Nat)
    (hlook : lookupA s.entries k = some e) (hexp : e.expiresAt = some t) (hpast : t < now) :
    Db.get s k = some e.data := by
  unfold Db.get
  rw [hlook]
  rfl

/-- Claim C9 witness: an entry that expired at instant 5, read at instant 9,
is still returned. -/
theorem claim9_get_ignores_expiry_witness :
    lookupA ([([107], ⟨0, [118], some 5⟩)] : List (Str × Entry)) [107]
        = some ⟨0, [118], some 5⟩ ∧
    (Entry.expiresAt ⟨0, [118], some 5⟩ = some 5) ∧ 5 < 9 ∧
    Db.get ⟨[([107], ⟨0, [118], some 5⟩)], [], [], 1, false, ⟨0⟩⟩ [107] = some [118] :=
  ⟨rfl, rfl, by omega,
    claim9_get_ignores_expiry ⟨[([107], ⟨0, [118], some 5⟩)], [], [], 1, false, ⟨0⟩⟩
      [107] ⟨0, [118], some 5⟩ 5 9 rfl rfl (by omega)⟩

/-! ### Association list and sorted index lemmas -/

theorem lookupA_insertA {α β : Type} [DecidableEq α] (l : List (α × β)) (k k' : α) (v : β) :
    lookupA (insertA l k v) k' = if k = k' then some v else lookupA l k' := by
  induction l with
  | nil => simp [insertA, lookupA]
  | cons p t ih =>
    obtain ⟨a, w⟩ := p
    unfold insertA
    by_cases hak : a = k
    · rw [if_pos hak]
      rw [show lookupA ((k, v) :: t) k' = if k = k' then some v else lookupA t k' from rfl]
      rw [show lookupA ((a, w) :: t) k' = if a = k' then some w else lookupA t k' from rfl]
      by_cases hk : k = k'
      · rw [if_pos hk, if_pos hk]
      · rw [if_neg hk, if_neg hk, if_neg (by rw [hak]; exact hk)]
    · rw [if_neg hak]
      rw [show lookupA ((a, w) :: insertA t k v) k'
          = if a = k' then some w else lookupA (insertA t k v) k' from rfl]
      rw [show lookupA ((a, w) :: t) k' = if a = k' then some w else lookupA t k' from rfl]
      by_cases hk : a = k'
      · rw [if_pos hk, if_pos hk, if_neg (by rw [← hk]; exact fun he => hak he.symm)]
      · rw [if_neg hk, if_neg hk, ih]

theorem lookupA_removeA_ne {α β : Type} [DecidableEq α] (l : List (α × β)) (k k' : α)
    (h : k ≠ k') : lookupA (removeA l k) k' = lookupA l k' := by
  induction l with
  | nil => rfl
  | cons p t ih =>
    obtain ⟨a, w⟩ := p
    unfold removeA
    by_cases hak : a = k
    · rw [if_pos hak]
      rw [show lookupA ((a, w) :: t) k' = if a = k' then some w else lookupA t k' from rfl]
      rw [if_neg (by rw [hak]; exact h)]
    · rw [if_neg hak]
      rw [show lookupA ((a, w) :: removeA t k) k'
          = if a = k' then some w else lookupA (removeA t k) k' from rfl]
      rw [show lookupA ((a, w) :: t) k' = if a = k' then some w else lookupA t k' from rfl]
      by_cases hk : a = k'
      · rw [if_pos hk, if_pos hk]
      · rw [if_neg hk, if_neg hk, ih]

theorem lookupA_eq_none {α β : Type} [DecidableEq α] {l : List (α × β)} {k : α}
    (h : k ∉ l.map Prod.fst) : lookupA l k = none := by
  induction l with
  | nil => rfl
  | cons p t ih =>
    obtain ⟨a, w⟩ := p
    unfold lookupA
    simp at h
    rw [if_neg (fun he => h.1 he.symm)]
    exact ih (by simp [h.2])

theorem lookupA_removeA_self {α β : Type} [DecidableEq α] {l : List (α × β)} (k : α)
    (hnd : (l.map Prod.fst).Nodup) : lookupA (removeA l k) k = none := by
  induction l with
  | nil => rfl
  | cons p t ih =>
    obtain ⟨a, w⟩ := p
    simp at hnd
    unfold removeA
    by_cases hak : a = k
    · subst hak
      rw [if_pos rfl]
      exact lookupA_eq_none (by simpa using hnd.1)
    · rw [if_neg hak]
      unfold lookupA
      rw [if_neg hak]
      exact ih hnd.2

theorem removeA_sublist {α β : Type} [DecidableEq α] (l : List (α × β)) (k : α) :
    (removeA l k).Sublist l := by
  induction l with
  | nil => simp [removeA]
  | cons p t ih =>
    obtain ⟨a, w⟩ := p
    unfold removeA
    by_cases hak : a = k
    · rw [if_pos hak]
      exact List.sublist_cons_self (a, w) t
    · rw [if_neg hak]
      exact ih.cons₂ (a, w)

theorem mem_removeA {α β : Type} [DecidableEq α] {l : List (α × β)} {k : α} {r : α × β}
    (h : r ∈ removeA l k) : r ∈ l :=
  (removeA_sublist l k).mem h

theorem mem_removeA_of_ne {α β : Type} [DecidableEq α] {l : List (α × β)} {k : α} {r : α × β}
    (hm : r ∈ l) (hk : r.1 ≠ k) : r ∈ removeA l k := by
  induction l with
  | nil => simp at hm
  | cons p t ih =>
    obtain ⟨a, w⟩ := p
    unfold removeA
    by_cases hak : a = k
    · subst hak
      rw [if_pos rfl]
      rcases List.mem_cons.mp hm with he | hm2
      · exact absurd (by rw [he]) hk
      · exact hm2
    · rw [if_neg hak]
      rcases List.mem_cons.mp hm with he | hm2
      · exact List.mem_cons.mpr (Or.inl he)
      · exact List.mem_cons.mpr (Or.inr (ih hm2))

theorem keys_insertA {α β : Type} [DecidableEq α] (t : List (α × β)) (k : α) (v : β) :
    ∀ x ∈ (insertA t k v).map Prod.fst, x = k ∨ x ∈ t.map Prod.fst := by
  induction t with
  | nil => intro x hx; simp [insertA] at hx; exact Or.inl hx
  | cons p t2 ih =>
    obtain ⟨a, w⟩ := p
    intro x hx
    unfold insertA at hx
    by_cases hak : a = k
    · rw [if_pos hak] at hx
      simp at hx
      rcases hx with hx | hx
      · exact Or.inl hx
      · exact Or.inr (by simp; right; exact hx)
    · rw [if_neg hak] at hx
      simp at hx
      rcases hx with hx | hx
      · exact Or.inr (by simp [hx])
      · rcases ih x (by simpa using hx) with hh | hh
        · exact Or.inl hh
        · exact Or.inr (by simp at hh ⊢; right; exact hh)

theorem nodup_keys_insertA {α β : Type} [DecidableEq α] {l : List (α × β)} (k : α) (v : β)
    (hnd : (l.map Prod.fst).Nodup) : ((insertA l k v).map Prod.fst).Nodup := by
  induction l with
  | nil => simp [insertA]
  | cons p t ih =>
    obtain ⟨a, w⟩ := p
    simp only [List.map_cons, List.nodup_cons] at hnd
    unfold insertA
    by_cases hak : a = k
    · rw [if_pos hak]
      simp only [List.map_cons, List.nodup_cons]
      exact ⟨by rw [← hak]; exact hnd.1, hnd.2⟩
    · rw [if_neg hak]
      simp only [List.map_cons, List.nodup_cons]
      refine ⟨?_, ih hnd.2⟩
      intro hmem
      rcases keys_insertA t k v a hmem with hh | hh
      · exact hak hh
      · exact hnd.1 hh

theorem nodup_keys_removeA {α β : Type} [DecidableEq α] {l : List (α × β)} (k : α)
    (hnd : (l.map Prod.fst).Nodup) : ((removeA l k).map Prod.fst).Nodup :=
  hnd.sublist ((removeA_sublist l k).map Prod.fst)

theorem expLt_trans {a b c : Nat × Nat} (h1 : expLt a b) (h2 : expLt b c) : expLt a c := by
  unfold expLt at *
  omega

theorem expLt_ne {a b : Nat × Nat} (h : expLt a b) : a ≠ b := by
  intro he
  subst he
  unfold expLt at h
  omega

theorem expLt_of_not {a b : Nat × Nat} (h1 : ¬expLt a b) (h2 : a ≠ b) : expLt b a := by
  unfold expLt at *
  rcases Nat.lt_trichotomy a.1 b.1 with hh | hh | hh
  · exact absurd (Or.inl hh) h1
  · rcases Nat.lt_trichotomy a.2 b.2 with h3 | h3 | h3
    · exact absurd (Or.inr ⟨hh, h3⟩) h1
    · exact absurd (Prod.ext hh h3) h2
    · exact Or.inr ⟨hh.symm, h3⟩
  · exact Or.inl hh

/-- Elements of a sorted insert are the new pair plus the old pairs whose keys
differ from the inserted key. -/
theorem mem_insertExp {l : List ((Nat × Nat) × Str)} {k : Nat × Nat} {v : Str}
    (hs : l.Pairwise (fun a b => expLt a.1 b.1)) (r : (Nat × Nat) × Str) :
    r ∈ insertExp l k v ↔ r = (k, v) ∨ (r ∈ l ∧ r.1 ≠ k) := by
  induction l with
  | nil => simp [insertExp]
  | cons p t ih =>
    obtain ⟨k2, v2⟩ := p
    rw [List.pairwise_cons] at hs
    unfold insertExp
    by_cases hlt : expLt k k2
    · rw [if_pos hlt]
      simp only [List.mem_cons]
      constructor
      · rintro (he | he | he)
        · exact Or.inl he
        · refine Or.inr ⟨Or.inl he, ?_⟩
          rw [he]
          exact fun hh => (expLt_ne hlt) hh.symm
        · refine Or.inr ⟨Or.inr he, ?_⟩
          have := hs.1 r he
          exact fun hh => (expLt_ne (expLt_trans hlt this)) hh.symm
      · rintro (he | ⟨he | he, hne⟩)
        · exact Or.inl he
        · exact Or.inr (Or.inl he)
        · exact Or.inr (Or.inr he)
    · rw [if_neg hlt]
      by_cases heq : k = k2
      · rw [if_pos heq]
        subst heq
        simp only [List.mem_cons]
        constructor
        · rintro (he | he)
          · exact Or.inl he
          · refine Or.inr ⟨Or.inr he, ?_⟩
            have := hs.1 r he
            exact fun hh => (expLt_ne this) hh.symm
        · rintro (he | ⟨he | he, hne⟩)
          · exact Or.inl he
          · exact absurd (by rw [he]) hne
          · exact Or.inr he
      · rw [if_neg heq]
        simp only [List.mem_cons]
        rw [ih hs.2]
        constructor
        · rintro (he | he | ⟨he, hne⟩)
          · refine Or.inr ⟨Or.inl he, ?_⟩
            rw [he]
            exact fun hh => heq hh.symm
          · exact Or.inl he
          · exact Or.inr ⟨Or.inr he, hne⟩
        · rintro (he | ⟨he | he, hne⟩)
          · exact Or.inr (Or.inl he)
          · exact Or.inl he
          · exact Or.inr (Or.inr ⟨he, hne⟩)

theorem pairwise_insertExp {l : List ((Nat × Nat) × Str)} (k : Nat × Nat) (v : Str)
    (hs : l.Pairwise (fun a b => expLt a.1 b.1)) :
    (insertExp l k v).Pairwise (fun a b => expLt a.1 b.1) := by
  induction l with
  | nil => simp [insertExp]
  | cons p t ih =>
    obtain ⟨k2, v2⟩ := p
    rw [List.pairwise_cons] at hs
    unfold insertExp
    by_cases hlt : expLt k k2
    · rw [if_pos hlt]
      rw [List.pairwise_cons]
      refine ⟨?_, List.pairwise_cons.mpr hs⟩
      intro r hr
      rcases List.mem_cons.mp hr with he | he
      · rw [he]; exact hlt
      · exact expLt_trans hlt (hs.1 r he)
    · rw [if_neg hlt]
      by_cases heq : k = k2
      · rw [if_pos heq]
        subst heq
        exact List.pairwise_cons.mpr hs
      · rw [if_neg heq]
        rw [List.pairwise_cons]
        refine ⟨?_, ih hs.2⟩
        intro r hr
        rw [mem_insertExp hs.2 r] at hr
        rcases hr with he | ⟨he, -⟩
        · rw [he]
          exact expLt_of_not hlt heq
        · exact hs.1 r he

theorem mem_removeA_key {l : List ((Nat × Nat) × Str)} {k : Nat × Nat}
    {r : (Nat × Nat) × Str} (hs : l.Pairwise (fun a b => expLt a.1 b.1))
    (h : r ∈ removeA l k) : r.1 ≠ k := by
  induction l with
  | nil => simp [removeA] at h
  | cons p t ih =>
    obtain ⟨k2, v2⟩ := p
    rw [List.pairwise_cons] at hs
    unfold removeA at h
    by_cases hk2 : k2 = k
    · rw [if_pos hk2] at h
      have := hs.1 r h
      intro he
      rw [← hk2] at he
      exact (expLt_ne this) he.symm
    · rw [if_neg hk2] at h
      rcases List.mem_cons.mp h with he | he
      · rw [he]
        exact hk2
      · exact ih hs.2 he

theorem pairwise_key_unique {l : List ((Nat × Nat) × Str)}
    (hs : l.Pairwise (fun a b => expLt a.1 b.1)) :
    ∀ r1 ∈ l, ∀ r2 ∈ l, r1.1 = r2.1 → r1 = r2 := by
  induction l with
  | nil => simp
  | cons p t ih =>
    rw [List.pairwise_cons] at hs
    intro r1 h1 r2 h2 he
    rcases List.mem_cons.mp h1 with h1e | h1m
    · rcases List.mem_cons.mp h2 with h2e | h2m
      · rw [h1e, h2e]
      · exfalso
        have := hs.1 r2 h2m
        rw [← h1e, ← he] at this
        exact (expLt_ne this) rfl
    · rcases List.mem_cons.mp h2 with h2e | h2m
      · exfalso
        have := hs.1 r1 h1m
        rw [← h2e, he] at this
        exact (expLt_ne this) rfl
      · exact ih hs.2 r1 h1m r2 h2m he

/-! ### The store invariant (claim C6) -/

/-- The claim's invariant, over the entry map and the expiration index: every
entry with a deadline has its `(deadline, id)` record mapping back to its key;
index keys are pairwise distinct, so that record is the only one; and every
index record refers to a present entry with matching id and deadline (no
record for a missing or replaced entry). -/
def ConsistentP (entries : List (Str × Entry)) (exps : List ((Nat × Nat) × Str)) : Prop :=
  (∀ k e t, lookupA entries k = some e → e.expiresAt = some t → ((t, e.id), k) ∈ exps)
  ∧ (∀ r1 ∈ exps, ∀ r2 ∈ exps, r1.1 = r2.1 → r1 = r2)
  ∧ (∀ r ∈ exps, ∃ e, lookupA entries r.2 = some e ∧ e.id = r.1.2 ∧
      e.expiresAt = some r.1.1)

/-- Bookkeeping facts that make the invariant inductive: all stored ids are
below `next_id`, the index is sorted strictly, entry keys are unique, and ids
identify entries uniquely. -/
def AuxP (entries : List (Str × Entry)) (exps : List ((Nat × Nat) × Str))
    (nextId : Nat) : Prop :=
  (∀ k e, lookupA entries k = some e → e.id < nextId)
  ∧ (∀ r ∈ exps, r.1.2 < nextId)
  ∧ exps.Pairwise (fun a b => expLt a.1 b.1)
  ∧ (entries.map Prod.fst).Nodup
  ∧ (∀ k1 k2 e1 e2, lookupA entries k1 = some e1 → lookupA entries k2 = some e2 →
      e1.id = e2.id → k1 = k2)

/-- The store invariant of a full state. -/
def StoreInv (s : State) : Prop :=
  ConsistentP s.entries s.expirations ∧ AuxP s.entries s.expirations s.nextId

/-- Inserting a non-expiring entry for a key no index record refers to. -/
theorem preserve_insert_noexp (entries : List (Str × Entry))
    (exps : List ((Nat × Nat) × Str)) (nid : Nat) (key value : Str)
    (hC : ConsistentP entries exps) (hA : AuxP entries exps nid)
    (hkeyrec : ∀ r ∈ exps, r.2 ≠ key) :
    ConsistentP (insertA entries key ⟨nid, value, none⟩) exps ∧
      AuxP (insertA entries key ⟨nid, value, none⟩) exps (nid + 1) := by
  obtain ⟨hc1, hc2, hc3⟩ := hC
  obtain ⟨ha1, ha2, ha3, ha4, ha5⟩ := hA
  refine ⟨⟨?_, hc2, ?_⟩, ?_, ?_, ha3, nodup_keys_insertA key _ ha4, ?_⟩
  · intro k e t hl he
    rw [lookupA_insertA] at hl
    split at hl
    · rename_i hk
      obtain he2 : (⟨nid, value, none⟩ : Entry) = e := Option.some.injEq _ _ ▸ hl
      rw [← he2] at he
      exact absurd he (by simp)
    · exact hc1 k e t hl he
  · intro r hr
    obtain ⟨e, hle, hid, hexp⟩ := hc3 r hr
    refine ⟨e, ?_, hid, hexp⟩
    rw [lookupA_insertA]
    rw [if_neg (fun hk => hkeyrec r hr hk.symm)]
    exact hle
  · intro k e hl
    rw [lookupA_insertA] at hl
    split at hl
    · obtain he2 : (⟨nid, value, none⟩ : Entry) = e := Option.some.injEq _ _ ▸ hl
      rw [← he2]
      show nid < nid + 1
      omega
    · have := ha1 k e hl
      omega
  · intro r hr
    have := ha2 r hr
    omega
  · intro k1 k2 e1 e2 h1 h2 hid
    rw [lookupA_insertA] at h1 h2
    split at h1
    · rename_i hk1
      split at h2
      · rename_i hk2
        rw [← hk1, ← hk2]
      · obtain he1 : (⟨nid, value, none⟩ : Entry) = e1 := Option.some.injEq _ _ ▸ h1
        have := ha1 k2 e2 h2
        rw [← he1] at hid
        simp at hid
        omega
    · split at h2
      · obtain he2 : (⟨nid, value, none⟩ : Entry) = e2 := Option.some.injEq _ _ ▸ h2
        have := ha1 k1 e1 h1
        rw [← he2] at hid
        simp at hid
        omega
      · exact ha5 k1 k2 e1 e2 h1 h2 hid

/-- Inserting a non-expiring entry that replaces an entry with a deadline:
the replaced entry's index record is removed. -/
theorem preserve_insert_noexp_remove (entries : List (Str × Entry))
    (exps : List ((Nat × Nat) × Str)) (nid : Nat) (key value : Str) (pe : Entry) (w : Nat)
    (hprev : lookupA entries key = some pe) (hpe : pe.expiresAt = some w)
    (hC : ConsistentP entries exps) (hA : AuxP entries exps nid) :
    ConsistentP (insertA entries key ⟨nid, value, none⟩) (removeA exps (w, pe.id)) ∧
      AuxP (insertA entries key ⟨nid, value, none⟩) (removeA exps (w, pe.id)) (nid + 1) := by
  obtain ⟨hc1, hc2, hc3⟩ := hC
  obtain ⟨ha1, ha2, ha3, ha4, ha5⟩ := hA
  refine ⟨⟨?_, ?_, ?_⟩, ?_, ?_, ha3.sublist (removeA_sublist _ _), nodup_keys_insertA key _ ha4, ?_⟩
  · intro k e t hl he
    rw [lookupA_insertA] at hl
    split at hl
    · rename_i hk
      obtain he2 : (⟨nid, value, none⟩ : Entry) = e := Option.some.injEq _ _ ▸ hl
      rw [← he2] at he
      exact absurd he (by simp)
    · rename_i hk
      have hmem := hc1 k e t hl he
      refine mem_removeA_of_ne hmem ?_
      intro hkey
      obtain ⟨ht, hide⟩ : t = w ∧ e.id = pe.id := by
        constructor
        · exact (Prod.mk.injEq _ _ _ _ ▸ hkey).1
        · exact (Prod.mk.injEq _ _ _ _ ▸ hkey).2
      exact hk (ha5 key k pe e hprev hl hide.symm)
  · intro r1 h1 r2 h2 he
    exact hc2 r1 (mem_removeA h1) r2 (mem_removeA h2) he
  · intro r hr
    have hrr := mem_removeA hr
    have hrk := mem_removeA_key ha3 hr
    obtain ⟨e, hle, hid, hexp⟩ := hc3 r hrr
    by_cases hk : r.2 = key
    · exfalso
      rw [hk, hprev] at hle
      obtain he : pe = e := Option.some.injEq _ _ ▸ hle
      rw [← he] at hid hexp
      rw [hpe] at hexp
      obtain hw : w = r.1.1 := Option.some.injEq _ _ ▸ hexp
      exact hrk (Prod.ext hw.symm hid.symm)
    · refine ⟨e, ?_, hid, hexp⟩
      rw [lookupA_insertA, if_neg (fun hkk => hk hkk.symm)]
      exact hle
  · intro k e hl
    rw [lookupA_insertA] at hl
    split at hl
    · obtain he2 : (⟨nid, value, none⟩ : Entry) = e := Option.some.injEq _ _ ▸ hl
      rw [← he2]
      show nid < nid + 1
      omega
    · have := ha1 k e hl
      omega
  · intro r hr
    have := ha2 r (mem_removeA hr)
    omega
  · intro k1 k2 e1 e2 h1 h2 hid
    rw [lookupA_insertA] at h1 h2
    split at h1
    · rename_i hk1
      split at h2
      · rename_i hk2
        rw [← hk1, ← hk2]
      · obtain he1 : (⟨nid, value, none⟩ : Entry) = e1 := Option.some.injEq _ _ ▸ h1
        have := ha1 k2 e2 h2
        rw [← he1] at hid
        simp at hid
        omega
    · split at h2
      · obtain he2 : (⟨nid, value, none⟩ : Entry) = e2 := Option.some.injEq _ _ ▸ h2
        have := ha1 k1 e1 h1
        rw [← he2] at hid
        simp at hid
        omega
      · exact ha5 k1 k2 e1 e2 h1 h2 hid

/-- Inserting an expiring entry for a key no index record refers to: the new
`(when, id)` record joins the index. -/
theorem preserve_insert_exp (entries : List (Str × Entry))
    (exps : List ((Nat × Nat) × Str)) (nid : Nat) (key value : Str) (wh : Nat)
    (hC : ConsistentP entries exps) (hA : AuxP entries exps nid)
    (hkeyrec : ∀ r ∈ exps, r.2 ≠ key) :
    ConsistentP (insertA entries key ⟨nid, value, some wh⟩) (insertExp exps (wh, nid) key) ∧
      AuxP (insertA entries key ⟨nid, value, some wh⟩) (insertExp exps (wh, nid) key)
        (nid + 1) := by
  obtain ⟨hc1, hc2, hc3⟩ := hC
  obtain ⟨ha1, ha2, ha3, ha4, ha5⟩ := hA
  have hpair : (insertExp exps (wh, nid) key).Pairwise (fun a b => expLt a.1 b.1) :=
    pairwise_insertExp _ _ ha3
  refine ⟨⟨?_, pairwise_key_unique hpair, ?_⟩, ?_, ?_, hpair,
    nodup_keys_insertA key _ ha4, ?_⟩
  · intro k e t hl he
    rw [lookupA_insertA] at hl
    split at hl
    · rename_i hk
      obtain he2 : (⟨nid, value, some wh⟩ : Entry) = e := Option.some.injEq _ _ ▸ hl
      rw [← he2] at he
      obtain ht : wh = t := Option.some.injEq _ _ ▸ he
      rw [(mem_insertExp ha3 _)]
      left
      rw [← hk, ← ht, ← he2]
    · rename_i hk
      have hmem := hc1 k e t hl he
      rw [(mem_insertExp ha3 _)]
      right
      refine ⟨hmem, ?_⟩
      intro hkey
      have := ha1 k e hl
      obtain hide : e.id = nid := (Prod.mk.injEq _ _ _ _ ▸ hkey).2
      omega
  · intro r hr
    rw [(mem_insertExp ha3 _)] at hr
    rcases hr with he | ⟨hmem, hne⟩
    · refine ⟨⟨nid, value, some wh⟩, ?_, ?_, ?_⟩
      · rw [lookupA_insertA, if_pos (by rw [he])]
      · rw [he]
      · rw [he]
    · obtain ⟨e, hle, hid, hexp⟩ := hc3 r hmem
      refine ⟨e, ?_, hid, hexp⟩
      rw [lookupA_insertA, if_neg (fun hkk => hkeyrec r hmem hkk.symm)]
      exact hle
  · intro k e hl
    rw [lookupA_insertA] at hl
    split at hl
    · obtain he2 : (⟨nid, value, some wh⟩ : Entry) = e := Option.some.injEq _ _ ▸ hl
      rw [← he2]
      show nid < nid + 1
      omega
    · have := ha1 k e hl
      omega
  · intro r hr
    rw [(mem_insertExp ha3 _)] at hr
    rcases hr with he | ⟨hmem, -⟩
    · rw [he]
      show nid < nid + 1
      omega
    · have := ha2 r hmem
      omega
  · intro k1 k2 e1 e2 h1 h2 hid
    rw [lookupA_insertA] at h1 h2
    split at h1
    · rename_i hk1
      split at h2
      · rename_i hk2
        rw [← hk1, ← hk2]
      · obtain he1 : (⟨nid, value, some wh⟩ : Entry) = e1 := Option.some.injEq _ _ ▸ h1
        have := ha1 k2 e2 h2
        rw [← he1] at hid
        simp at hid
        omega
    · split at h2
      · obtain he2 : (⟨nid, value, some wh⟩ : Entry) = e2 := Option.some.injEq _ _ ▸ h2
        have := ha1 k1 e1 h1
        rw [← he2] at hid
        simp at hid
        omega
      · exact ha5 k1 k2 e1 e2 h1 h2 hid

/-- Inserting an expiring entry that replaces an entry with a deadline: the
new record joins the index and the replaced entry's record is removed. -/
theorem preserve_insert_exp_remove (entries : List (Str × Entry))
    (exps : List ((Nat × Nat) × Str)) (nid : Nat) (key value : Str) (wh : Nat)
    (pe : Entry) (w : Nat)
    (hprev : lookupA entries key = some pe) (hpe : pe.expiresAt = some w)
    (hC : ConsistentP entries exps) (hA : AuxP entries exps nid) :
    ConsistentP (insertA entries key ⟨nid, value, some wh⟩)
        (removeA (insertExp exps (wh, nid) key) (w, pe.id)) ∧
      AuxP (insertA entries key ⟨nid, value, some wh⟩)
        (removeA (insertExp exps (wh, nid) key) (w, pe.id)) (nid + 1) := by
  obtain ⟨hc1, hc2, hc3⟩ := hC
  obtain ⟨ha1, ha2, ha3, ha4, ha5⟩ := hA
  have hpid : pe.id < nid := ha1 key pe hprev
  have hpair : (insertExp exps (wh, nid) key).Pairwise (fun a b => expLt a.1 b.1) :=
    pairwise_insertExp _ _ ha3
  have hpair2 : (removeA (insertExp exps (wh, nid) key) (w, pe.id)).Pairwise
      (fun a b => expLt a.1 b.1) := hpair.sublist (removeA_sublist _ _)
  refine ⟨⟨?_, pairwise_key_unique hpair2, ?_⟩, ?_, ?_, hpair2,
    nodup_keys_insertA key _ ha4, ?_⟩
  · intro k e t hl he
    rw [lookupA_insertA] at hl
    split at hl
    · rename_i hk
      obtain he2 : (⟨nid, value, some wh⟩ : Entry) = e := Option.some.injEq _ _ ▸ hl
      rw [← he2] at he
      obtain ht : wh = t := Option.some.injEq _ _ ▸ he
      refine mem_removeA_of_ne ?_ ?_
      · rw [(mem_insertExp ha3 _)]
        left
        rw [← hk, ← ht, ← he2]
      · rw [← ht, ← he2]
        intro hkey
        obtain hide : nid = pe.id := (Prod.mk.injEq _ _ _ _ ▸ hkey).2
        omega
    · rename_i hk
      have hmem := hc1 k e t hl he
      have hidlt := ha1 k e hl
      refine mem_removeA_of_ne ?_ ?_
      · rw [(mem_insertExp ha3 _)]
        right
        refine ⟨hmem, ?_⟩
        intro hkey
        obtain hide : e.id = nid := (Prod.mk.injEq _ _ _ _ ▸ hkey).2
        omega
      · intro hkey
        obtain hide : e.id = pe.id := (Prod.mk.injEq _ _ _ _ ▸ hkey).2
        exact hk (ha5 key k pe e hprev hl hide.symm)
  · intro r hr
    have hr1 := mem_removeA hr
    have hrk := mem_removeA_key hpair hr
    rw [(mem_insertExp ha3 _)] at hr1
    rcases hr1 with he | ⟨hmem, hne⟩
    · refine ⟨⟨nid, value, some wh⟩, ?_, ?_, ?_⟩
      · rw [lookupA_insertA, if_pos (by rw [he])]
      · rw [he]
      · rw [he]
    · obtain ⟨e, hle, hid, hexp⟩ := hc3 r hmem
      by_cases hk : r.2 = key
      · exfalso
        rw [hk, hprev] at hle
        obtain hee : pe = e := Option.some.injEq _ _ ▸ hle
        rw [← hee] at hid hexp
        rw [hpe] at hexp
        obtain hw : w = r.1.1 := Option.some.injEq _ _ ▸ hexp
        exact hrk (Prod.ext hw.symm hid.symm)
      · refine ⟨e, ?_, hid, hexp⟩
        rw [lookupA_insertA, if_neg (fun hkk => hk hkk.symm)]
        exact hle
  · intro k e hl
    rw [lookupA_insertA] at hl
    split at hl
    · obtain he2 : (⟨nid, value, some wh⟩ : Entry) = e := Option.some.injEq _ _ ▸ hl
      rw [← he2]
      show nid < nid + 1
      omega
    · have := ha1 k e hl
      omega
  · intro r hr
    have hr1 := mem_removeA hr
    rw [(mem_insertExp ha3 _)] at hr1
    rcases hr1 with he | ⟨hmem, -⟩
    · rw [he]
      show nid < nid + 1
      omega
    · have := ha2 r hmem
      omega
  · intro k1 k2 e1 e2 h1 h2 hid
    rw [lookupA_insertA] at h1 h2
    split at h1
    · rename_i hk1
      split at h2
      · rename_i hk2
        rw [← hk1, ← hk2]
      · obtain he1 : (⟨nid, value, some wh⟩ : Entry) = e1 := Option.some.injEq _ _ ▸ h1
        have := ha1 k2 e2 h2
        rw [← he1] at hid
        simp at hid
        omega
    · split at h2
      · obtain he2 : (⟨nid, value, some wh⟩ : Entry) = e2 := Option.some.injEq _ _ ▸ h2
        have := ha1 k1 e1 h1
        rw [← he2] at hid
        simp at hid
        omega
      · exact ha5 k1 k2 e1 e2 h1 h2 hid

/-- `Db::set` preserves the store invariant in each of its six shapes
(expiring or not, crossed with fresh key / replacing a non-expiring entry /
replacing an expiring entry). -/
theorem set_preserves (s : State) (now : Nat) (key value : Str) (expire : Option Nat)
    (h : StoreInv s) : StoreInv (Db.set s now key value expire).state := by
  obtain ⟨hC, hA⟩ := h
  have hkeyrec_none : lookupA s.entries key = none → ∀ r ∈ s.expirations, r.2 ≠ key := by
    intro hprev r hr hk
    obtain ⟨e, hle, -, -⟩ := hC.2.2 r hr
    rw [hk, hprev] at hle
    exact absurd hle (by simp)
  have hkeyrec_noexp : ∀ pe : Entry, lookupA s.entries key = some pe → pe.expiresAt = none →
      ∀ r ∈ s.expirations, r.2 ≠ key := by
    intro pe hprev hpe r hr hk
    obtain ⟨e, hle, -, hexp⟩ := hC.2.2 r hr
    rw [hk, hprev] at hle
    obtain hee : pe = e := Option.some.injEq _ _ ▸ hle
    rw [← hee, hpe] at hexp
    exact absurd hexp (by simp)
  unfold Db.set
  cases expire with
  | none =>
    dsimp only
    cases hprev : lookupA s.entries key with
    | none =>
      dsimp only
      have hh := preserve_insert_noexp s.entries s.expirations s.nextId key value hC hA
        (hkeyrec_none hprev)
      exact ⟨hh.1, hh.2⟩
    | some pe =>
      dsimp only
      cases hpe : pe.expiresAt with
      | none =>
        dsimp only
        have hh := preserve_insert_noexp s.entries s.expirations s.nextId key value hC hA
          (hkeyrec_noexp pe hprev hpe)
        exact ⟨hh.1, hh.2⟩
      | some w =>
        dsimp only
        have hh := preserve_insert_noexp_remove s.entries s.expirations s.nextId key value
          pe w hprev hpe hC hA
        exact ⟨hh.1, hh.2⟩
  | some dur =>
    dsimp only
    cases hprev : lookupA s.entries key with
    | none =>
      dsimp only
      have hh := preserve_insert_exp s.entries s.expirations s.nextId key value (now + dur)
        hC hA (hkeyrec_none hprev)
      split <;> exact ⟨hh.1, hh.2⟩
    | some pe =>
      dsimp only
      cases hpe : pe.expiresAt with
      | none =>
        dsimp only
        have hh := preserve_insert_exp s.entries s.expirations s.nextId key value (now + dur)
          hC hA (hkeyrec_noexp pe hprev hpe)
        split <;> exact ⟨hh.1, hh.2⟩
      | some w =>
        dsimp only
        have hh := preserve_insert_exp_remove s.entries s.expirations s.nextId key value
          (now + dur) pe w hprev hpe hC hA
        split <;> exact ⟨hh.1, hh.2⟩

/-- Purging the minimum (expired) index record and its entry preserves the
invariant over the remaining index. -/
theorem purge_step (entries : List (Str × Entry)) (rest : List ((Nat × Nat) × Str))
    (wh id : Nat) (key : Str) (nid : Nat)
    (hC : ConsistentP entries (((wh, id), key) :: rest))
    (hA : AuxP entries (((wh, id), key) :: rest) nid) :
    ConsistentP (removeA entries key) rest ∧ AuxP (removeA entries key) rest nid := by
  obtain ⟨hc1, hc2, hc3⟩ := hC
  obtain ⟨ha1, ha2, ha3, ha4, ha5⟩ := hA
  rw [List.pairwise_cons] at ha3
  refine ⟨⟨?_, ?_, ?_⟩, ?_, ?_, ha3.2, nodup_keys_removeA key ha4, ?_⟩
  · intro k e t hl he
    by_cases hk : k = key
    · rw [hk, lookupA_removeA_self key ha4] at hl
      exact absurd hl (by simp)
    · rw [lookupA_removeA_ne _ _ _ (fun hkk => hk hkk.symm)] at hl
      have hmem := hc1 k e t hl he
      rcases List.mem_cons.mp hmem with heq | hmem2
      · exact absurd (congrArg Prod.snd heq) hk
      · exact hmem2
  · intro r1 h1 r2 h2 he
    exact hc2 r1 (by simp [h1]) r2 (by simp [h2]) he
  · intro r hr
    obtain ⟨e, hle, hid, hexp⟩ := hc3 r (by simp [hr])
    by_cases hk : r.2 = key
    · exfalso
      obtain ⟨e0, hle0, hid0, hexp0⟩ := hc3 ((wh, id), key) (by simp)
      rw [hk, hle0] at hle
      obtain hee : e0 = e := Option.some.injEq _ _ ▸ hle
      rw [← hee] at hid hexp
      dsimp at hid0 hexp0
      rw [hexp0] at hexp
      obtain hw : wh = r.1.1 := Option.some.injEq _ _ ▸ hexp
      rw [hid0] at hid
      have hlt := ha3.1 r hr
      dsimp at hlt
      exact (expLt_ne hlt) (Prod.ext hw.symm hid.symm).symm
    · refine ⟨e, ?_, hid, hexp⟩
      rw [lookupA_removeA_ne _ _ _ (fun hkk => hk hkk.symm)]
      exact hle
  · intro k e hl
    by_cases hk : k = key
    · rw [hk, lookupA_removeA_self key ha4] at hl
      exact absurd hl (by simp)
    · rw [lookupA_removeA_ne _ _ _ (fun hkk => hk hkk.symm)] at hl
      exact ha1 k e hl
  · intro r hr
    exact ha2 r (by simp [hr])
  · intro k1 k2 e1 e2 h1 h2 hid
    by_cases hk1 : k1 = key
    · rw [hk1, lookupA_removeA_self key ha4] at h1
      exact absurd h1 (by simp)
    · by_cases hk2 : k2 = key
      · rw [hk2, lookupA_removeA_self key ha4] at h2
        exact absurd h2 (by simp)
      · rw [lookupA_removeA_ne _ _ _ (fun hkk => hk1 hkk.symm)] at h1
        rw [lookupA_removeA_ne _ _ _ (fun hkk => hk2 hkk.symm)] at h2
        exact ha5 k1 k2 e1 e2 h1 h2 hid

/-- The full sweep loop preserves the invariant. -/
theorem purgeLoop_preserves (now : Nat) : ∀ (exps : List ((Nat × Nat) × Str))
    (entries : List (Str × Entry)) (nid : Nat),
    ConsistentP entries exps → AuxP entries exps nid →
    ConsistentP (purgeLoop now exps entries).2.1 (purgeLoop now exps entries).1 ∧
      AuxP (purgeLoop now exps entries).2.1 (purgeLoop now exps entries).1 nid := by
  intro exps
  induction exps with
  | nil =>
    intro entries nid hC hA
    exact ⟨hC, hA⟩
  | cons R rest ih =>
    obtain ⟨⟨wh, id⟩, key⟩ := R
    intro entries nid hC hA
    unfold purgeLoop
    by_cases hlt : now < wh
    · rw [if_pos hlt]
      exact ⟨hC, hA⟩
    · rw [if_neg hlt]
      have hstep := purge_step entries rest wh id key nid hC hA
      exact ih (removeA entries key) nid hstep.1 hstep.2

/-- `Shared::purge_expired_keys` preserves the store invariant. -/
theorem purge_preserves (s : State) (now : Nat) (h : StoreInv s) :
    StoreInv (Shared.purgeExpiredKeys s now).1 := by
  unfold Shared.purgeExpiredKeys
  split
  · exact h
  · dsimp only
    have hh := purgeLoop_preserves now s.expirations s.entries s.nextId h.1 h.2
    exact ⟨hh.1, hh.2⟩

/-- `Db::subscribe` touches only the pub/sub registry. -/
theorem subscribe_preserves (s : State) (key : Str) (h : StoreInv s) :
    StoreInv (Db.subscribe s key) := by
  unfold Db.subscribe
  cases lookupA s.pubSub key with
  | none => exact h
  | some n => exact h

/-- The `Drop` handler touches only the shutdown flag and the notifier. -/
theorem dropLast_preserves (s : State) (h : StoreInv s) : StoreInv (Db.dropLast s) := h

/-- Every reachable store state satisfies the invariant. -/
theorem reachable_inv (s : State) (hr : Reachable s) : StoreInv s := by
  induction hr with
  | init =>
    refine ⟨⟨?_, ?_, ?_⟩, ?_, ?_, ?_, ?_, ?_⟩ <;> simp [initState, lookupA]
  | set s2 now key value expire hr2 ih => exact set_preserves s2 now key value expire ih
  | purge s2 now hr2 ih => exact purge_preserves s2 now ih
  | subscribe s2 key hr2 ih => exact subscribe_preserves s2 key ih
  | drop s2 hr2 ih => exact dropLast_preserves s2 ih

/-- Claim C6: in every store state reachable from a fresh store by `Db::set`
calls, sweeper passes (`purge_expired_keys`), subscribes and the drop
handler — so in particular initially and after every set and sweeper pass —
each entry with `expires_at = Some(t)` has its `(t, id)` index record mapping
back to its key and that record is the only one with its key, and every index
record refers to a present entry with matching id and deadline (never to a
missing or replaced entry). -/
theorem claim6_store_invariant (s : State) (hr : Reachable s) :
    (∀ k e t, lookupA s.entries k = some e → e.expiresAt = some t →
      ((t, e.id), k) ∈ s.expirations ∧
        (∀ r ∈ s.expirations, r.1 = (t, e.id) → r = ((t, e.id), k))) ∧
    (∀ r ∈ s.expirations, ∃ e, lookupA s.entries r.2 = some e ∧ e.id = r.1.2 ∧
      e.expiresAt = some r.1.1) := by
  obtain ⟨⟨hc1, hc2, hc3⟩, -⟩ := reachable_inv s hr
  refine ⟨?_, hc3⟩
  intro k e t hl he
  have hmem := hc1 k e t hl he
  refine ⟨hmem, ?_⟩
  intro r hrm hkey
  exact hc2 r hrm ((t, e.id), k) hmem hkey

/-- Claim C6 witness: the invariant conclusion at the concrete reachable state
obtained by setting one expiring key and then running a sweeper pass that does
not yet purge it. -/
theorem claim6_store_invariant_witness :
    (∀ k e t,
      lookupA (Shared.purgeExpiredKeys (Db.set initState 0 [107] [118] (some 5)).state 3).1.entries
          k = some e →
      e.expiresAt = some t →
      ((t, e.id), k) ∈
          (Shared.purgeExpiredKeys (Db.set initState 0 [107] [118] (some 5)).state 3).1.expirations ∧
        (∀ r ∈ (Shared.purgeExpiredKeys (Db.set initState 0 [107] [118] (some 5)).state
            3).1.expirations,
          r.1 = (t, e.id) → r = ((t, e.id), k))) ∧
    (∀ r ∈ (Shared.purgeExpiredKeys (Db.set initState 0 [107] [118] (some 5)).state
        3).1.expirations,
      ∃ e, lookupA (Shared.purgeExpiredKeys (Db.set initState 0 [107] [118]
          (some 5)).state 3).1.entries r.2 = some e ∧
        e.id = r.1.2 ∧ e.expiresAt = some r.1.1) :=
  claim6_store_invariant _
    (Reachable.purge (Db.set initState 0 [107] [118] (some 5)).state 3
      (Reachable.set initState 0 [107] [118] (some 5) Reachable.init))

end MyRedis
